import Mathlib

/-!
# Rubinius `Tuple`, `InlineCache` and `CompiledCode`: a shallow embedding and its
verification

The embedding of the tuple primitives follows `machine/class/tuple.cpp`.

* A `Tuple*` is an address into a heap of tuples, so that the pointer test
  `other == this` of `Tuple::copy_from` is an honest comparison of addresses.
* `native_int` values are mathematical integers.  Every integer argument of a
  primitive arrives as a `Fixnum`, whose magnitude is below `2^62`, and every
  array size is non-negative and below `2^62` as well, so the sums and
  differences formed in the source stay inside the 64-bit range and never wrap.
* A raised exception leaves through `Except.error`; the machine state at the
  moment of the raise is kept next to it, so that "nothing was modified" is a
  statement about that state.
* Every call of `memory()->write_barrier(holder, value)` is appended to a log.
-/

namespace Rubinius

/-- An object reference: the `nil` singleton, an immediate integer, or the
address of a heap object. -/
inductive Object where
  | cNil
  | fixnum (n : Int)
  | ref (addr : Nat)
  deriving DecidableEq, Repr

instance : Inhabited Object := ⟨Object.cNil⟩

/-- The exceptions raised by the primitives. `object_bounds_exceeded` carries the
method name, the reported index and the reported size of the message built by
`Tuple::bounds_exceeded_error`; `type_error` is raised by a failing checked cast
`as<T>` and carries the name of `T`. -/
inductive Error where
  | object_bounds_exceeded (method : String) (index : Int) (size : Int)
  | argument_error (msg : String)
  | type_error (expected : String)
  | assertion_failed (msg : String)
  deriving DecidableEq, Repr

/-- A tuple object: its class and its `field[]` storage; `num_fields()` is the
length of `field`. -/
structure Tuple where
  klass : Object
  field : List Object
  deriving DecidableEq, Repr

instance : Inhabited Tuple := ⟨⟨Object.cNil, []⟩⟩

/-- The part of the machine state the primitives touch: the tuples on the heap
(indexed by address), the log of write-barrier calls `(holder, value)` in call
order, and the global `G(tuple)`. -/
structure State where
  heap : List Tuple
  barriers : List (Nat × Object)
  tuple_class : Object
  deriving DecidableEq, Repr

/-- What a primitive leaves behind: the returned value or the raised exception,
and the machine state at that moment. -/
structure Result (α : Type) where
  value : Except Error α
  state : State

/-- The tuple stored at an address. -/
def State.tuple (st : State) (self : Nat) : Tuple :=
  st.heap.getD self default

/-- The `field[]` storage of the tuple at an address. -/
def State.fields (st : State) (self : Nat) : List Object :=
  (st.tuple self).field

/-- Replace the `field[]` storage of the tuple at an address. -/
def State.setFields (st : State) (self : Nat) (f : List Object) : State :=
  { st with heap := st.heap.set self { st.tuple self with field := f } }

/-- The call `state->memory()->write_barrier(holder, val)`. -/
def State.write_barrier (st : State) (holder : Nat) (val : Object) : State :=
  { st with barriers := st.barriers ++ [(holder, val)] }

/-- The read `field[i]` for a `native_int` index. -/
def fieldGet (f : List Object) (i : Int) : Object :=
  if 0 ≤ i then f.getD i.toNat Object.cNil else Object.cNil

/-- The store `field[i] = v` for a `native_int` index. -/
def fieldSet (f : List Object) (i : Int) (v : Object) : List Object :=
  if 0 ≤ i then f.set i.toNat v else f

/-- The conversion of a `native_int` to the `int` parameter of
`bounds_exceeded_error`. -/
def toInt32 (i : Int) : Int :=
  (i + 2147483648) % 4294967296 - 2147483648

namespace Tuple

/-- The accessor `num_fields()`. -/
def num_fields (st : State) (self : Nat) : Int :=
  ((st.fields self).length : Int)

/-- The method `Tuple::bounds_exceeded_error`: raises, reporting the index and the
size of the receiver. -/
def bounds_exceeded_error {α : Type} (st : State) (self : Nat) (method : String)
    (index : Int) : Result α :=
  ⟨Except.error (Error.object_bounds_exceeded method (toInt32 index) (num_fields st self)), st⟩

/-- The primitive `Tuple::at_prim`. -/
def at_prim (st : State) (self : Nat) (index : Int) : Result Object :=
  if index < 0 ∨ num_fields st self ≤ index then
    bounds_exceeded_error st self "Tuple::at_prim" index
  else
    ⟨Except.ok (fieldGet (st.fields self) index), st⟩

/-- The primitive `Tuple::put_prim`. -/
def put_prim (st : State) (self : Nat) (idx : Int) (val : Object) : Result Object :=
  if idx < 0 ∨ num_fields st self ≤ idx then
    bounds_exceeded_error st self "Tuple::put_prim" idx
  else
    let st1 := st.setFields self (fieldSet (st.fields self) idx val)
    ⟨Except.ok val, st1.write_barrier self val⟩

/-- The right-shift loop of `Tuple::copy_from` (`src_start < dst_start`): copies
from the high end downwards, stopping when `src_idx` falls below `src_start`. -/
def copy_from.right_shift (src_start dest_idx src_idx : Int) (f : List Object) : List Object :=
  if src_idx ≥ src_start then
    copy_from.right_shift src_start (dest_idx - 1) (src_idx - 1)
      (fieldSet f dest_idx (fieldGet f src_idx))
  else f
termination_by (src_idx - src_start + 1).toNat
decreasing_by omega

/-- The left-shift loop of `Tuple::copy_from`: copies from the low end upwards
while `src_idx < src_start + len`; `src_end` is that bound. -/
def copy_from.left_shift (src_end dest_idx src_idx : Int) (f : List Object) : List Object :=
  if src_idx < src_end then
    copy_from.left_shift src_end (dest_idx + 1) (src_idx + 1)
      (fieldSet f dest_idx (fieldGet f src_idx))
  else f
termination_by (src_end - src_idx).toNat
decreasing_by omega

/-- The element-wise loop of `Tuple::copy_from` between two different tuples:
reads `other->field[src]`, stores it in `field[dst]` and runs the write barrier. -/
def copy_from.copy_loop (self other : Nat) (src_end src dst : Int) (st : State) : State :=
  if src < src_end then
    let obj := fieldGet (st.fields other) src
    let st1 := st.setFields self (fieldSet (st.fields self) dst obj)
    copy_from.copy_loop self other src_end (src + 1) (dst + 1) (st1.write_barrier self obj)
  else st
termination_by (src_end - src).toNat
decreasing_by omega

/-- The primitive `Tuple::copy_from(other, start, length, dest)`; it returns
`this`. -/
def copy_from (st : State) (self other : Nat) (start length dest : Int) : Result Nat :=
  let osize := num_fields st other
  let size := num_fields st self
  let src_start := start
  let dst_start := dest
  let len := length
  if src_start < 0 ∨ src_start > osize then
    bounds_exceeded_error st other "Tuple::copy_from" src_start
  else if dst_start < 0 ∨ dst_start > size then
    bounds_exceeded_error st self "Tuple::copy_from" dst_start
  else if len < 0 then
    bounds_exceeded_error st other "Tuple::copy_from" len
  else if src_start + len > osize then
    bounds_exceeded_error st other "Tuple::copy_from" (src_start + len)
  else if len > size - dst_start then
    bounds_exceeded_error st self "Tuple::copy_from" len
  else if other = self then
    if src_start = dst_start then ⟨Except.ok self, st⟩
    else if src_start < dst_start then
      ⟨Except.ok self, st.setFields self
        (copy_from.right_shift src_start (dst_start + len - 1) (src_start + len - 1)
          (st.fields self))⟩
    else
      ⟨Except.ok self, st.setFields self
        (copy_from.left_shift (src_start + len) dst_start src_start (st.fields self))⟩
  else
    ⟨Except.ok self, copy_from.copy_loop self other (src_start + len) src_start dst_start st⟩

/-- The inner compaction loop of `Tuple::delete_inplace`: moves every element
different from `obj` down to position `j`; returns the final `j` and the fields. -/
def delete_inplace.compact (obj : Object) (rend i j : Int) (f : List Object) :
    Int × List Object :=
  if i < rend then
    let val := fieldGet f i
    if val ≠ obj then
      delete_inplace.compact obj rend (i + 1) (j + 1) (fieldSet f j val)
    else
      delete_inplace.compact obj rend (i + 1) j f
  else (j, f)
termination_by (rend - i).toNat
decreasing_by all_goals omega

/-- The clean-up loop of `Tuple::delete_inplace`: stores `cNil` from `i` up to
`rend`. -/
def delete_inplace.cleanup (rend i : Int) (f : List Object) : List Object :=
  if i < rend then
    delete_inplace.cleanup rend (i + 1) (fieldSet f i Object.cNil)
  else f
termination_by (rend - i).toNat
decreasing_by omega

/-- The outer loop of `Tuple::delete_inplace`: looks for the first slot holding
`obj`; there it compacts, cleans up and returns `rend - j`; without such a slot
it returns 0. The read `this->at(i)` of the source is the read of `field[i]`. -/
def delete_inplace.scan (obj : Object) (rend i : Int) (f : List Object) :
    Int × List Object :=
  if i < rend then
    if fieldGet f i = obj then
      let r := delete_inplace.compact obj rend (i + 1) i f
      (rend - r.1, delete_inplace.cleanup rend r.1 r.2)
    else
      delete_inplace.scan obj rend (i + 1) f
  else (0, f)
termination_by (rend - i).toNat
decreasing_by omega

/-- The method `Tuple::delete_inplace(lend, len, obj)` on the receiver's fields:
the returned count and the fields afterwards. -/
def delete_inplace (f : List Object) (lend len : Int) (obj : Object) : Int × List Object :=
  let rend := lend + len
  delete_inplace.scan obj rend lend f

/-- The primitive `Tuple::delete_inplace_prim(start, length, obj)`; the returned
`Fixnum` is given by its integer value. -/
def delete_inplace_prim (st : State) (self : Nat) (start length : Int) (obj : Object) :
    Result Int :=
  let size := num_fields st self
  let len := length
  let lend := start
  let rend := lend + len
  if size = 0 ∨ len = 0 then ⟨Except.ok 0, st⟩
  else if lend < 0 ∨ lend ≥ size then
    bounds_exceeded_error st self "Tuple::delete_inplace" lend
  else if rend < 0 ∨ rend > size then
    bounds_exceeded_error st self "Tuple::delete_inplace" rend
  else
    let r := delete_inplace (st.fields self) lend len obj
    ⟨Except.ok r.1, st.setFields self r.2⟩

/-- The first loop of `Tuple::lshift_inplace`: `field[i++] = field[j++]` while
`j < size`; returns the final `i` and the fields. -/
def lshift_inplace.shift (size i j : Int) (f : List Object) : Int × List Object :=
  if j < size then
    lshift_inplace.shift size (i + 1) (j + 1) (fieldSet f i (fieldGet f j))
  else (i, f)
termination_by (size - j).toNat
decreasing_by omega

/-- The second loop of `Tuple::lshift_inplace`: `field[i++] = cNil` while
`i < size`. -/
def lshift_inplace.clear (size i : Int) (f : List Object) : List Object :=
  if i < size then
    lshift_inplace.clear size (i + 1) (fieldSet f i Object.cNil)
  else f
termination_by (size - i).toNat
decreasing_by omega

/-- The primitive `Tuple::lshift_inplace(shift)`; `assert(start >= 0)` aborts on a
negative shift. -/
def lshift_inplace (st : State) (self : Nat) (shift : Int) : Result Nat :=
  let size := num_fields st self
  let start := shift
  if ¬ (start ≥ 0) then ⟨Except.error (Error.assertion_failed "start >= 0"), st⟩
  else if start > 0 then
    let r := lshift_inplace.shift size 0 start (st.fields self)
    ⟨Except.ok self, st.setFields self (lshift_inplace.clear size r.1 r.2)⟩
  else ⟨Except.ok self, st⟩

/-- The swap loop of `Tuple::reverse`; the pointers `pos1` and `pos2` are given
by their offsets from `field`. -/
def reverse.swap_loop (pos1 pos2 : Int) (f : List Object) : List Object :=
  if pos1 < pos2 then
    let tmp := fieldGet f pos1
    let f1 := fieldSet f pos1 (fieldGet f pos2)
    let f2 := fieldSet f1 pos2 tmp
    reverse.swap_loop (pos1 + 1) (pos2 - 1) f2
  else f
termination_by (pos2 - pos1).toNat
decreasing_by omega

/-- The primitive `Tuple::reverse(o_start, o_total)`; it returns `this`. -/
def reverse (st : State) (self : Nat) (o_start o_total : Int) : Result Nat :=
  let start := o_start
  let total := o_total
  if total ≤ 0 ∨ start < 0 ∨ start ≥ num_fields st self then ⟨Except.ok self, st⟩
  else
    let end0 := start + total - 1
    let end1 := if end0 ≥ num_fields st self then num_fields st self - 1 else end0
    ⟨Except.ok self, st.setFields self (reverse.swap_loop start end1 (st.fields self))⟩

end Tuple

/-- Modelled from the spec: `Memory::new_fields<Tuple>(state, klass, n)`, whose
definition is not part of the sources at hand. It allocates a tuple of `n` fields
at the next free address. The initial content of the fields is taken to be `cNil`;
`Tuple::pattern` overwrites every one of them. -/
def State.new_fields (st : State) (klass : Object) (n : Int) : Nat × State :=
  (st.heap.length,
    { st with heap := st.heap ++ [{ klass := klass, field := List.replicate n.toNat Object.cNil }] })

namespace Tuple

/-- The fill loop of `Tuple::pattern`: `tuple->field[i] = val` for `i < cnt`. -/
def pattern.fill (cnt i : Int) (val : Object) (f : List Object) : List Object :=
  if i < cnt then
    pattern.fill cnt (i + 1) val (fieldSet f i val)
  else f
termination_by (cnt - i).toNat
decreasing_by omega

/-- The primitive `Tuple::pattern(size, val)`; it returns the new tuple. -/
def pattern (st : State) (size : Int) (val : Object) : Result Nat :=
  let cnt := size
  if cnt < 0 then ⟨Except.error (Error.argument_error "negative tuple size"), st⟩
  else
    let a := st.new_fields st.tuple_class cnt
    let tuple := a.1
    let st1 := a.2
    let st2 := st1.setFields tuple (pattern.fill cnt 0 val (st1.fields tuple))
    ⟨Except.ok tuple, st2.write_barrier tuple val⟩

end Tuple

/-- A result is the raised bounds-exceeded exception. -/
def Result.isBoundsError {α : Type} (r : Result α) : Prop :=
  ∃ m i s, r.value = Except.error (Error.object_bounds_exceeded m i s)

/-- A heap with three tuples, `[1,2,3,4,5]`, `[1,2,1,3,1]` and the empty tuple, on
which the theorems are instantiated. -/
def sampleState : State :=
  { heap := [⟨Object.cNil, [Object.fixnum 1, Object.fixnum 2, Object.fixnum 3, Object.fixnum 4,
               Object.fixnum 5]⟩,
             ⟨Object.cNil, [Object.fixnum 1, Object.fixnum 2, Object.fixnum 1, Object.fixnum 3,
               Object.fixnum 1]⟩,
             ⟨Object.cNil, []⟩],
    barriers := [],
    tuple_class := Object.ref 99 }

/-- The setter `klass(state, k)` of an object header, on the tuple at an address. -/
def State.setKlass (st : State) (self : Nat) (k : Object) : State :=
  { st with heap := st.heap.set self { st.tuple self with klass := k } }

namespace Tuple

/-- Modelled from the spec: `Tuple::initialize` of `tuple.hpp`, which is not among
the sources at hand (the name is reserved in Lean, hence `init_fields`). It prepares the fields of a tuple that was just allocated
and leaves the number of fields as requested; every field is taken to hold
`cNil` afterwards. -/
def init_fields (st : State) (tup : Nat) : State :=
  st.setFields tup (List.replicate (st.fields tup).length Object.cNil)

/-- The constructor `Tuple::create(fields)`; it returns the new tuple. -/
def create (st : State) (fields : Int) : Result Nat :=
  if fields < 0 then ⟨Except.error (Error.argument_error "negative tuple size"), st⟩
  else
    let a := st.new_fields st.tuple_class fields
    let tup := a.1
    ⟨Except.ok tup, init_fields a.2 tup⟩

/-- The primitive `Tuple::allocate(self, fields)`. The checked cast
`as<Class>(self)` belongs to `object_utils.hpp`, which is not among the sources at
hand: which objects are classes is the parameter `kind_of_Class`, and the cast
raises `TypeError` on any other object. -/
def allocate (kind_of_Class : Object → Bool) (st : State) (self : Object) (fields : Int) :
    Result Nat :=
  let size := fields
  if size < 0 then ⟨Except.error (Error.argument_error "negative tuple size"), st⟩
  else
    let r := create st fields
    match r.value with
    | Except.error e => ⟨Except.error e, r.state⟩
    | Except.ok tuple =>
      if kind_of_Class self then ⟨Except.ok tuple, r.state.setKlass tuple self⟩
      else ⟨Except.error (Error.type_error "Class"), r.state⟩

end Tuple

/-- The mark callback handed to `Tuple::Info::mark`. `call` is `mark.call`: it
answers `none` for a null pointer and `some o` for a relocated object `o`;
`called` lists the objects `mark.call` was invoked on so far, in call order. -/
structure ObjectMark where
  call : Object → Option Object
  called : List Object

/-- Modelled from the spec: `ObjectMark::set(target, pos, val)`, whose definition is
not among the sources at hand: the holder updates its stored reference, that is
`*pos = val` for the slot `pos = &field[i]`. -/
def ObjectMark.set (f : List Object) (i : Int) (val : Object) : List Object :=
  fieldSet f i val

namespace Tuple

/-- The loop of `Tuple::Info::mark`: for `i < tup->num_fields()` it calls
`mark.call(tup->field[i])` and, on a non-null answer, `mark.set` on that slot. -/
def Info.mark.loop (i : Int) (f : List Object) (mark : ObjectMark) :
    List Object × ObjectMark :=
  if i < (f.length : Int) then
    let x := fieldGet f i
    let mark1 : ObjectMark := { mark with called := mark.called ++ [x] }
    match mark.call x with
    | some tmp => Info.mark.loop (i + 1) (ObjectMark.set f i tmp) mark1
    | none => Info.mark.loop (i + 1) f mark1
  else (f, mark)
termination_by ((f.length : Int) - i).toNat
decreasing_by
  all_goals simp_wf
  · have hl : (ObjectMark.set f i tmp).length = f.length := by
      unfold ObjectMark.set fieldSet
      split <;> simp
    rw [hl]; omega
  · omega

/-- The method `Tuple::Info::mark(obj, mark)`. The object is given by the address
of a tuple, for which the cast `as<Tuple>(obj)` succeeds. -/
def Info.mark (st : State) (obj : Nat) (mark : ObjectMark) : State × ObjectMark :=
  let tup := obj
  let r := Info.mark.loop 0 (st.fields tup) mark
  (st.setFields tup r.1, r.2)

end Tuple
/-- A result is the raised `ArgumentError`. -/
def Result.isArgumentError {α : Type} (r : Result α) : Prop :=
  ∃ m, r.value = Except.error (Error.argument_error m)

/-- A stand-in for `kind_of<Class>`: the only class object of `sampleState` is its
global `G(tuple)`, the object at reference 99. -/
def sampleKind (o : Object) : Bool :=
  decide (o = Object.ref 99)

/-- A heap with one tuple, `[nil, 1]`. -/
def nilState : State :=
  { heap := [⟨Object.cNil, [Object.cNil, Object.fixnum 1]⟩],
    barriers := [],
    tuple_class := Object.ref 99 }

/-! ## The inline cache (`vm/builtin/inline_cache.cpp`)

The functions of `inline_cache.cpp` are embedded as they stand. The types they
work on and the helpers they call are declared in headers that are not among the
sources at hand; those are modelled below, each under a comment that says so.
A `Class*`, an `InlineCacheEntry*` and an `InlineCache*` are addresses into the
tables of `VM`. `check_cache` and `check_cache_mm` end in a tail call, to the
cached method or to the fallback; the embedding returns that call, with the
state in which it is made, instead of running it. -/

/-- The per-class data token `ClassData`: the class id and the serial (revision)
of the class. -/
structure ClassData where
  class_id : Nat
  serial_id : Nat
  deriving DecidableEq, Repr

instance : Inhabited ClassData := ⟨⟨0, 0⟩⟩

/-- The enumeration `MethodMissingReason`; the source names only `eNone`. -/
inductive MethodMissingReason where
  | eNone
  | reason (code : Nat)
  deriving DecidableEq, Repr

instance : Inhabited MethodMissingReason := ⟨MethodMissingReason.eNone⟩

/-- The value `Dispatch`: the call-site name it was built for, the defining
module, the resolved method and the missing-reason. -/
structure Dispatch where
  name : Object
  module : Object
  method : Object
  method_missing : MethodMissingReason
  deriving DecidableEq, Repr

/-- An `InlineCacheEntry` object with the five fields `InlineCacheEntry::create`
assigns. -/
structure InlineCacheEntry where
  receiver_ : ClassData
  receiver_class : Nat
  stored_module : Object
  method : Object
  method_missing_ : MethodMissingReason
  deriving DecidableEq, Repr

instance : Inhabited InlineCacheEntry :=
  ⟨⟨default, 0, Object.cNil, Object.cNil, MethodMissingReason.eNone⟩⟩

/-- One slot `InlineCacheHit` of a cache: the entry (or null) and its hit
counter. -/
structure InlineCacheHit where
  entry_ : Option Nat
  hits_ : Nat
  deriving DecidableEq, Repr

instance : Inhabited InlineCacheHit := ⟨⟨none, 0⟩⟩

/-- The values the field `executor_` of a call site takes here. -/
inductive Executor where
  | unset
  | check_cache
  | check_cache_mm
  deriving DecidableEq, Repr

/-- The values the field `updater_` of a call site takes here. -/
inductive Updater where
  | unset
  | inline_cache_updater
  deriving DecidableEq, Repr

/-- An `InlineCache` object: the call-site fields `InlineCache::create` assigns,
the overflow counter and the slots `cache_[]`. A `FallbackExecutor` is given by
a number. -/
structure InlineCache where
  name_ : Object
  executable : Object
  ip_ : Int
  executor_ : Executor
  fallback_ : Nat
  updater_ : Updater
  seen_classes_overflow_ : Int
  cache_ : List InlineCacheHit
  deriving DecidableEq, Repr

instance : Inhabited InlineCache :=
  ⟨⟨Object.cNil, Object.cNil, 0, Executor.unset, 0, Updater.unset, 0, []⟩⟩

/-- Modelled from the spec: the single-entry (monomorphic) predecessor
`MonoInlineCache`, declared in `mono_inline_cache.hpp`; the fields are those
`InlineCache::create` reads. -/
structure MonoInlineCache where
  name : Object
  executable : Object
  ip : Int
  fallback_ : Nat
  receiver_data : ClassData
  receiver_class : Nat
  stored_module : Object
  method : Object
  method_missing : MethodMissingReason
  deriving DecidableEq, Repr

/-- The `Arguments` of a call: the receiver and the argument list. -/
structure Arguments where
  recv : Object
  arguments : List Object
  deriving DecidableEq, Repr

/-- Modelled from the spec: `Arguments::unshift`, which prepends a value to the
argument list. -/
def Arguments.unshift (args : Arguments) (val : Object) : Arguments :=
  { args with arguments := val :: args.arguments }

/-- The part of the machine the inline cache touches: the class data of each
class, the entries and the caches on the heap, and the missing-reason recorded
by `set_method_missing_reason`. -/
structure VM where
  classes : List ClassData
  entries : List InlineCacheEntry
  caches : List InlineCache
  method_missing_reason : MethodMissingReason
  deriving DecidableEq, Repr

/-- The call in which `check_cache` and `check_cache_mm` end:
`meth->execute(state, call_frame, meth, mod, args)` or
`cache->fallback(state, call_frame, args)`, the latter through the function
pointer `fallback_` of the call site. -/
inductive Call where
  | execute (call_frame : Nat) (meth : Object) (mod : Object) (args : Arguments)
  | fallback (fallback_ : Nat) (call_site : Nat) (call_frame : Nat) (args : Arguments)
  deriving DecidableEq, Repr

/-- The entry object at an address. -/
def VM.entry (st : VM) (e : Nat) : InlineCacheEntry :=
  st.entries.getD e default

/-- The cache object at an address. -/
def VM.cache (st : VM) (c : Nat) : InlineCache :=
  st.caches.getD c default

/-- Replace the cache object at an address. -/
def VM.setCache (st : VM) (c : Nat) (v : InlineCache) : VM :=
  { st with caches := st.caches.set c v }

/-- The accessor `klass->data()`. -/
def VM.class_data (st : VM) (klass : Nat) : ClassData :=
  st.classes.getD klass default

/-- The call `state->vm()->set_method_missing_reason(reason)`. -/
def VM.set_method_missing_reason (st : VM) (reason : MethodMissingReason) : VM :=
  { st with method_missing_reason := reason }

/-- Modelled from the spec: `InlineCacheHit::hit`, the increment of a slot's hit
counter. -/
def InlineCacheHit.hit (h : InlineCacheHit) : InlineCacheHit :=
  { h with hits_ := h.hits_ + 1 }

/-- The call `ic->hit()` on slot `ic` of the cache at an address. -/
def VM.hit (st : VM) (cache ic : Nat) : VM :=
  st.setCache cache
    { st.cache cache with
      cache_ := (st.cache cache).cache_.set ic
        ((st.cache cache).cache_.getD ic default).hit }

namespace InlineCacheEntry

/-- The constructor `InlineCacheEntry::create(data, klass, dis)`: a new entry object
whose five fields are assigned from the arguments; it returns the new entry. -/
def create (st : VM) (data : ClassData) (klass : Nat) (dis : Dispatch) : Nat × VM :=
  let cache := st.entries.length
  (cache,
    { st with entries := st.entries ++
        [{ receiver_ := data,
           receiver_class := klass,
           stored_module := dis.module,
           method := dis.method,
           method_missing_ := dis.method_missing }] })

end InlineCacheEntry

namespace InlineCache

/-- The scan of `get_inline_cache` over the slots from index `i` on. -/
def get_inline_cache.scan (st : VM) (recv_class : Nat) :
    Nat → List InlineCacheHit → Option (Nat × Nat)
  | _, [] => none
  | i, s :: rest =>
    match s.entry_ with
    | some e =>
      if (st.entry e).receiver_class = recv_class then some (i, e)
      else get_inline_cache.scan st recv_class (i + 1) rest
    | none => get_inline_cache.scan st recv_class (i + 1) rest

/-- Modelled from the spec: `get_inline_cache(recv_class, entry)` of
`inline_cache.hpp`, the linear scan of the slots for one whose entry's receiver
class is `recv_class`. It answers the slot and its entry, or `none` for a null
pointer. The increment of the hit counter that the spec counts as part of the
lookup is the call `ic->hit()` that `check_cache` makes itself. -/
def get_inline_cache (st : VM) (cache : Nat) (recv_class : Nat) : Option (Nat × Nat) :=
  get_inline_cache.scan st recv_class 0 (st.cache cache).cache_

/-- Modelled from the spec: `clear()`, which empties every slot of the cache. -/
def clear (st : VM) (cache : Nat) : VM :=
  st.setCache cache
    { st.cache cache with
      cache_ := (st.cache cache).cache_.map (fun _ => ({ entry_ := none, hits_ := 0 } : InlineCacheHit)) }

/-- The installation into the first empty slot, if there is one. -/
def set_cache.install_empty (entry : Nat) : List InlineCacheHit → Option (List InlineCacheHit)
  | [] => none
  | s :: rest =>
    match s.entry_ with
    | none => some ({ entry_ := some entry, hits_ := 0 } :: rest)
    | some _ => (set_cache.install_empty entry rest).map (fun r => s :: r)

/-- Modelled from the spec: `set_cache(entry)` of `inline_cache.hpp`. An empty slot
is preferred. Without one the slot is chosen by the update policy, which the spec
leaves open and which is the parameter `policy`; when the class of the entry is
not among the cached ones the overflow counter is incremented, and
`install_on_overflow` says whether the entry is installed as well. A slot that
receives an entry starts with a hit count of 0. -/
def set_cache (policy : List InlineCacheHit → Nat) (install_on_overflow : Bool)
    (st : VM) (cache : Nat) (entry : Nat) : VM :=
  let c := st.cache cache
  match set_cache.install_empty entry c.cache_ with
  | some slots => st.setCache cache { c with cache_ := slots }
  | none =>
    let installed : List InlineCacheHit :=
      c.cache_.set (policy c.cache_) { entry_ := some entry, hits_ := 0 }
    match get_inline_cache st cache (st.entry entry).receiver_class with
    | some _ => st.setCache cache { c with cache_ := installed }
    | none =>
      st.setCache cache
        { c with
          seen_classes_overflow_ := c.seen_classes_overflow_ + 1,
          cache_ := if install_on_overflow then installed else c.cache_ }

/-- Modelled from the spec: `new_object_mature<InlineCache>`, the allocation of a
cache object at the next free address; it has `cTrackedICHits` slots. -/
def new_object_mature (cTrackedICHits : Nat) (st : VM) : Nat × VM :=
  (st.caches.length,
    { st with caches := st.caches ++
        [{ (default : InlineCache) with cache_ := List.replicate cTrackedICHits default }] })

/-- The constructor `InlineCache::create(mono)`; it returns the new cache. The
constant `cTrackedICHits` and the open choices of `set_cache` are parameters. -/
def create (cTrackedICHits : Nat) (policy : List InlineCacheHit → Nat)
    (install_on_overflow : Bool) (st : VM) (mono : MonoInlineCache) : Nat × VM :=
  let a := new_object_mature cTrackedICHits st
  let cache := a.1
  let st1 := a.2.setCache cache
    { a.2.cache cache with
      name_ := mono.name,
      executable := mono.executable,
      ip_ := mono.ip,
      executor_ := Executor.check_cache,
      fallback_ := mono.fallback_,
      updater_ := Updater.inline_cache_updater,
      seen_classes_overflow_ := 0 }
  let st2 := clear st1 cache
  let dis : Dispatch :=
    { name := mono.name,
      module := mono.stored_module,
      method := mono.method,
      method_missing := mono.method_missing }
  let e := InlineCacheEntry.create st2 mono.receiver_data mono.receiver_class dis
  let entry := e.1
  (cache, set_cache policy install_on_overflow e.2 cache entry)

/-- The executor `InlineCache::check_cache`. `lookup_begin` stands for
`Object::lookup_begin`, the class at which the lookup for a receiver begins. -/
def check_cache (lookup_begin : Object → Nat) (st : VM) (call_site call_frame : Nat)
    (args : Arguments) : Call × VM :=
  let recv_class := lookup_begin args.recv
  let cache := call_site
  match get_inline_cache st cache recv_class with
  | some (ic, entry) =>
    let meth := (st.entry entry).method
    let mod := (st.entry entry).stored_module
    let st1 := st.hit cache ic
    (Call.execute call_frame meth mod args, st1)
  | none =>
    (Call.fallback (st.cache cache).fallback_ cache call_frame args, st)

/-- The executor `InlineCache::check_cache_mm`. -/
def check_cache_mm (lookup_begin : Object → Nat) (st : VM) (call_site call_frame : Nat)
    (args : Arguments) : Call × VM :=
  let recv_class := lookup_begin args.recv
  let cache := call_site
  match get_inline_cache st cache recv_class with
  | some (ic, entry) =>
    let r : Arguments × VM :=
      if (st.entry entry).method_missing_ ≠ MethodMissingReason.eNone then
        (args.unshift (st.cache call_site).name_,
          st.set_method_missing_reason (st.entry entry).method_missing_)
      else (args, st)
    let meth := (r.2.entry entry).method
    let mod := (r.2.entry entry).stored_module
    let st1 := r.2.hit cache ic
    (Call.execute call_frame meth mod r.1, st1)
  | none =>
    (Call.fallback (st.cache cache).fallback_ cache call_frame args, st)

/-- The updater `InlineCache::inline_cache_updater(call_site, klass, fallback,
dispatch)`. -/
def inline_cache_updater (policy : List InlineCacheHit → Nat) (install_on_overflow : Bool)
    (st : VM) (call_site : Nat) (klass : Nat) (_fallback : Nat) (dispatch : Dispatch) : VM :=
  let cache := call_site
  let e := InlineCacheEntry.create st (st.class_data klass) klass dispatch
  let entry := e.1
  set_cache policy install_on_overflow e.2 cache entry

end InlineCache

/-! ## The specialization table of `CompiledCode` (`machine/builtin/compiled_code.hpp`)

The header declares `set_unspecialized`, `add_specialized` and `find_specialized`;
their definitions are not among the sources at hand. -/

/-- One registered specialization: the class id and serial it was compiled for, the
entry point and its runtime data. -/
structure Specialization where
  class_id : Nat
  serial_id : Nat
  execute : Nat
  rd : Nat
  deriving DecidableEq, Repr

/-- Modelled from the spec: the specialization table attached to a `CompiledCode`,
a mapping from (class identity, code revision) to a specialized entry point, with
the most recent registration first, plus the default entry point. An `executor`
is given by a number, `none` is the null pointer. -/
structure CompiledCode where
  unspecialized : Option Nat
  unspecialized_rd : Nat
  specializations : List Specialization
  deriving DecidableEq, Repr

namespace CompiledCode

/-- Modelled from the spec: `set_unspecialized(exec, rd)` installs the generic,
unspecialized entry point. -/
def set_unspecialized (code : CompiledCode) (exec : Nat) (rd : Nat) : CompiledCode :=
  { code with unspecialized := some exec, unspecialized_rd := rd }

/-- Modelled from the spec: `add_specialized(class_id, serial_id, exec, rd)` registers
an additional entry point keyed by the pair; entries are never removed. -/
def add_specialized (code : CompiledCode) (class_id serial_id : Nat) (exec : Nat) (rd : Nat) :
    CompiledCode :=
  { code with specializations :=
      { class_id := class_id, serial_id := serial_id, execute := exec, rd := rd }
        :: code.specializations }

/-- The most recent registration that matches the class identity and the current
code revision of a class, if there is one. -/
def find_entry (code : CompiledCode) (cls : ClassData) : Option Specialization :=
  code.specializations.find?
    (fun s => decide (s.class_id = cls.class_id ∧ s.serial_id = cls.serial_id))

/-- Modelled from the spec: `find_specialized(cls)` looks up the most recent entry
matching the class identity and current code revision and returns the default
entry point if no specialization matches. The class is given by its data. -/
def find_specialized (code : CompiledCode) (cls : ClassData) : Option Nat :=
  match find_entry code cls with
  | some s => some s.execute
  | none => code.unspecialized

end CompiledCode

/-- A machine with two classes and no cache yet. -/
def sampleVM : VM :=
  { classes := [⟨7, 1⟩, ⟨8, 4⟩],
    entries := [],
    caches := [],
    method_missing_reason := MethodMissingReason.eNone }

/-- A monomorphic cache for the class at address 0. -/
def sampleMono : MonoInlineCache :=
  { name := Object.ref 50,
    executable := Object.ref 51,
    ip := 12,
    fallback_ := 5,
    receiver_data := ⟨7, 1⟩,
    receiver_class := 0,
    stored_module := Object.ref 60,
    method := Object.ref 61,
    method_missing := MethodMissingReason.eNone }

/-- A stand-in for `Object::lookup_begin`: the integer `n` has the class at
address `n`, every other object the class at address 0. -/
def sampleLookup (o : Object) : Nat :=
  match o with
  | Object.fixnum n => n.toNat
  | _ => 0

/-- A slot-choice policy for a full cache: the last slot. -/
def samplePolicy (slots : List InlineCacheHit) : Nat :=
  slots.length - 1

/-- A machine with one cache of three slots that has entries for the classes 0
(a normal method) and 1 (a method-missing entry). -/
def sampleVM2 : VM :=
  { classes := [⟨7, 1⟩, ⟨8, 4⟩],
    entries := [⟨⟨7, 1⟩, 0, Object.ref 60, Object.ref 61, MethodMissingReason.eNone⟩,
                ⟨⟨8, 4⟩, 1, Object.ref 70, Object.ref 71, MethodMissingReason.reason 2⟩],
    caches := [{ name_ := Object.ref 50, executable := Object.ref 51, ip_ := 12,
                 executor_ := Executor.check_cache_mm, fallback_ := 5,
                 updater_ := Updater.inline_cache_updater, seen_classes_overflow_ := 0,
                 cache_ := [⟨some 0, 3⟩, ⟨some 1, 0⟩, ⟨none, 0⟩] }],
    method_missing_reason := MethodMissingReason.eNone }

/-- A specialization table with a default entry point 100 and two registrations
for class 7, under the revisions 1 and 2. -/
def sampleCode : CompiledCode :=
  CompiledCode.add_specialized
    (CompiledCode.add_specialized
      (CompiledCode.set_unspecialized ⟨none, 0, []⟩ 100 0) 7 1 201 0) 7 2 202 0

/-! # Verification -/

/-! ## Field access -/

theorem length_fieldSet (f : List Object) (i : Int) (v : Object) :
    (fieldSet f i v).length = f.length := by
  unfold fieldSet
  split <;> simp

theorem fieldGet_fieldSet (f : List Object) (i j : Int) (v : Object) :
    fieldGet (fieldSet f j v) i
      = if i = j ∧ 0 ≤ j ∧ j < f.length then v else fieldGet f i := by
  unfold fieldGet fieldSet
  by_cases hj : 0 ≤ j
  · by_cases hi : 0 ≤ i
    · simp only [hj, hi, if_true, true_and]
      by_cases hij : i = j
      · subst hij
        by_cases hlt : i < f.length
        · have : i.toNat < f.length := by omega
          simp [hlt, List.getD_eq_getElem?_getD, List.getElem?_set, this]
        · have : ¬ i.toNat < f.length := by omega
          have h2 : f[i.toNat]? = none := by
            rw [List.getElem?_eq_none_iff]; omega
          simp [hlt, List.getD_eq_getElem?_getD, List.getElem?_set, this, h2]
      · have : j.toNat ≠ i.toNat := by omega
        simp [hij, List.getD_eq_getElem?_getD, List.getElem?_set, this]
    · have : i ≠ j := by omega
      simp [hj, hi, this]
  · simp [hj]

theorem fieldGet_of_lt (f : List Object) (i : Int) (h0 : 0 ≤ i) (h1 : i < f.length) :
    f[i.toNat]? = some (fieldGet f i) := by
  have : i.toNat < f.length := by omega
  simp [fieldGet, h0, List.getD_eq_getElem?_getD, this]

/-- Two field lists of equal length that agree at every index are equal. -/
theorem fields_ext (f g : List Object) (hl : g.length = f.length)
    (h : ∀ i : Int, 0 ≤ i → i < f.length → fieldGet g i = fieldGet f i) : g = f := by
  apply List.ext_getElem? 
  intro n
  by_cases hn : n < f.length
  · have h1 := h (n : Int) (by omega) (by omega)
    have a := fieldGet_of_lt f n (by omega) (by omega)
    have b := fieldGet_of_lt g n (by omega) (by omega)
    simp at a b
    rw [a, b, h1]
  · have : ¬ n < g.length := by omega
    rw [List.getElem?_eq_none_iff.mpr (by omega), List.getElem?_eq_none_iff.mpr (by omega)]

namespace Tuple

theorem fieldGet_replicate (n : Nat) (v : Object) (i : Int) (h0 : 0 ≤ i) (h1 : i < n) :
    fieldGet (List.replicate n v) i = v := by
  have : i.toNat < n := by omega
  simp [fieldGet, h0, List.getD_eq_getElem?_getD, List.getElem?_replicate, this]

end Tuple

theorem fieldGet_append_cons (A B : List Object) (x : Object) (i : Int)
    (hi : i = A.length) : fieldGet (A ++ x :: B) i = x := by
  subst hi
  have h : (A ++ x :: B)[A.length]? = some x := by
    rw [List.getElem?_append_right (le_refl _)]
    simp
  simp [fieldGet, List.getD_eq_getElem?_getD, h]

theorem fieldSet_append_cons (A B : List Object) (x y : Object) (i : Int)
    (hi : i = A.length) : fieldSet (A ++ x :: B) i y = A ++ y :: B := by
  subst hi
  simp [fieldSet]

theorem count_add_length_filter (obj : Object) (R : List Object) :
    R.count obj + (R.filter (fun x => decide (x ≠ obj))).length = R.length := by
  induction R with
  | nil => rfl
  | cons r R ih =>
    by_cases h : r = obj
    · subst h
      simp only [List.count_cons_self, List.length_cons]
      rw [List.filter_cons_of_neg (by simp)]
      omega
    · rw [List.count_cons_of_ne (Ne.symm h), List.filter_cons_of_pos (by simpa using h)]
      simp only [List.length_cons]
      omega

theorem fields_split (f : List Object) (a b : Nat) :
    f = f.take a ++ (f.drop a).take b ++ f.drop (a + b) := by
  rw [List.append_assoc, ← List.drop_drop, List.take_append_drop, List.take_append_drop]

/-! ## The heap -/

theorem State.fields_setFields_self (st : State) (self : Nat) (f : List Object)
    (h : self < st.heap.length) : (st.setFields self f).fields self = f := by
  simp [State.fields, State.tuple, State.setFields, List.getD_eq_getElem?_getD, h]

theorem State.fields_setFields_ne (st : State) (self other : Nat) (f : List Object)
    (h : other ≠ self) : (st.setFields self f).fields other = st.fields other := by
  simp [State.fields, State.tuple, State.setFields, List.getD_eq_getElem?_getD,
    List.getElem?_set, Ne.symm h]

theorem State.fields_write_barrier (st : State) (holder : Nat) (v : Object) (a : Nat) :
    (st.write_barrier holder v).fields a = st.fields a := rfl

theorem State.heap_length_setFields (st : State) (self : Nat) (f : List Object) :
    (st.setFields self f).heap.length = st.heap.length := by
  simp [State.setFields]

theorem State.valid_of_fields_ne_nil (st : State) (self : Nat)
    (h : 0 < (st.fields self).length) : self < st.heap.length := by
  by_contra hc
  have : st.heap[self]? = none := by simp [List.getElem?_eq_none]; omega
  simp [State.fields, State.tuple, List.getD_eq_getElem?_getD, this] at h
  exact absurd h (by decide)

theorem State.setFields_fields_self (st : State) (self : Nat) :
    st.setFields self (st.fields self) = st := by
  cases st with
  | mk heap b c =>
    simp only [State.setFields, State.fields, State.tuple, State.mk.injEq, and_true]
    apply List.ext_getElem?
    intro n
    by_cases hn : self < heap.length
    · by_cases hs : self = n
      · subst hs; simp [List.getElem?_set, hn, List.getD_eq_getElem?_getD]
      · simp [List.getElem?_set, hs]
    · have : heap.length ≤ self := by omega
      simp [List.set_eq_of_length_le this]

theorem State.fields_eq_nil_of_invalid (st : State) (self : Nat)
    (h : ¬ self < st.heap.length) : st.fields self = [] := by
  have : st.heap[self]? = none := by rw [List.getElem?_eq_none_iff]; omega
  simp [State.fields, State.tuple, List.getD_eq_getElem?_getD, this]
  rfl

theorem State.fields_setFields_same_length (st : State) (self : Nat) (g : List Object)
    (h : g.length = (st.fields self).length) : (st.setFields self g).fields self = g := by
  by_cases hv : self < st.heap.length
  · exact State.fields_setFields_self st self g hv
  · have h1 := State.fields_eq_nil_of_invalid st self hv
    rw [h1] at h
    have hg : g = [] := List.eq_nil_of_length_eq_zero h
    have h2 := State.fields_eq_nil_of_invalid (st.setFields self g) self
      (by rw [State.heap_length_setFields]; exact hv)
    rw [h2, hg]

theorem State.fields_new_fields_new (st : State) (klass : Object) (n : Int) :
    (st.new_fields klass n).2.fields (st.new_fields klass n).1
      = List.replicate n.toNat Object.cNil := by
  simp [State.new_fields, State.fields, State.tuple, List.getD_eq_getElem?_getD]

theorem State.fields_new_fields_old (st : State) (klass : Object) (n : Int) (a : Nat)
    (h : a < st.heap.length) : (st.new_fields klass n).2.fields a = st.fields a := by
  simp [State.new_fields, State.fields, State.tuple, List.getD_eq_getElem?_getD,
    List.getElem?_append_left h]

namespace Tuple

theorem num_fields_nonneg (st : State) (self : Nat) : 0 ≤ num_fields st self := by
  unfold num_fields; omega

theorem valid_of_lt_num_fields (st : State) (self : Nat) (i : Int) (h0 : 0 ≤ i)
    (h1 : i < num_fields st self) : self < st.heap.length := by
  apply State.valid_of_fields_ne_nil
  unfold num_fields at h1; omega

theorem bounds_exceeded_error_isBoundsError {α : Type} (st : State) (self : Nat)
    (m : String) (i : Int) : (bounds_exceeded_error st self m i : Result α).isBoundsError :=
  ⟨m, toInt32 i, num_fields st self, rfl⟩

theorem not_isBoundsError_ok {α : Type} (a : α) (st : State) :
    ¬ (Result.mk (Except.ok a) st).isBoundsError := by
  rintro ⟨m, i, s, h⟩
  cases h

end Tuple

/-! ## `Tuple::at_prim` and `Tuple::put_prim` -/

namespace Tuple

/-- C1: for an index `i` with `0 ≤ i < num_fields`, `put_prim(i, v)` returns `v`
without raising, and `at_prim(i)` on the state it leaves returns exactly `v`. -/
theorem put_prim_then_at_prim (st : State) (self : Nat) (i : Int) (v : Object)
    (h0 : 0 ≤ i) (h1 : i < num_fields st self) :
    (put_prim st self i v).value = Except.ok v ∧
      (at_prim (put_prim st self i v).state self i).value = Except.ok v := by
  have hv := valid_of_lt_num_fields st self i h0 h1
  have hc : ¬ (i < 0 ∨ num_fields st self ≤ i) := by omega
  have hput : put_prim st self i v
      = ⟨Except.ok v, (st.setFields self (fieldSet (st.fields self) i v)).write_barrier self v⟩ := by
    simp only [put_prim, if_neg hc]
  rw [hput]
  refine ⟨rfl, ?_⟩
  have hf : ((st.setFields self (fieldSet (st.fields self) i v)).write_barrier self v).fields self
      = fieldSet (st.fields self) i v := by
    rw [State.fields_write_barrier, State.fields_setFields_self _ _ _ hv]
  have hn : num_fields ((st.setFields self (fieldSet (st.fields self) i v)).write_barrier self v) self
      = num_fields st self := by
    simp only [num_fields, hf, length_fieldSet]
  have hc2 : ¬ (i < 0 ∨ num_fields ((st.setFields self (fieldSet (st.fields self) i v)).write_barrier self v) self ≤ i) := by
    rw [hn]; exact hc
  simp only [at_prim, if_neg hc2, hf, fieldGet_fieldSet]
  have : i < ((st.fields self).length : Int) := h1
  simp [h0, this]

end Tuple

/-- An instance of `put_prim_then_at_prim`: slot 2 of `[1,2,3,4,5]`. -/
theorem put_prim_then_at_prim_witness :
    (Tuple.put_prim sampleState 0 2 (Object.fixnum 9)).value = Except.ok (Object.fixnum 9) ∧
      (Tuple.at_prim (Tuple.put_prim sampleState 0 2 (Object.fixnum 9)).state 0 2).value
        = Except.ok (Object.fixnum 9) :=
  Tuple.put_prim_then_at_prim sampleState 0 2 (Object.fixnum 9) (by decide) (by decide)

namespace Tuple

/-- C2: `at_prim(i)` and `put_prim(i, v)` raise the bounds-exceeded error exactly
when `i < 0` or `i ≥ num_fields`; `at_prim` never changes the state, and a
`put_prim` that raises leaves the whole state, hence every slot, as it was. -/
theorem at_put_prim_bounds_error_iff (st : State) (self : Nat) (i : Int) (v : Object) :
    ((at_prim st self i).isBoundsError ↔ (i < 0 ∨ num_fields st self ≤ i)) ∧
    ((put_prim st self i v).isBoundsError ↔ (i < 0 ∨ num_fields st self ≤ i)) ∧
    (at_prim st self i).state = st ∧
    ((put_prim st self i v).isBoundsError → (put_prim st self i v).state = st) := by
  by_cases hc : i < 0 ∨ num_fields st self ≤ i
  · simp only [at_prim, put_prim, if_pos hc, iff_true, hc]
    exact ⟨bounds_exceeded_error_isBoundsError _ _ _ _,
      bounds_exceeded_error_isBoundsError _ _ _ _, rfl, fun _ => rfl⟩
  · simp only [at_prim, put_prim, if_neg hc, iff_false, hc]
    exact ⟨not_isBoundsError_ok _ _, not_isBoundsError_ok _ _, rfl,
      fun h => absurd h (not_isBoundsError_ok _ _)⟩

end Tuple

/-- An instance of `at_put_prim_bounds_error_iff`: index 5 on a tuple of five fields raises
and leaves the state as it was. -/
theorem at_put_prim_bounds_error_iff_witness :
    (Tuple.put_prim sampleState 0 5 (Object.fixnum 9)).isBoundsError ∧
      (Tuple.put_prim sampleState 0 5 (Object.fixnum 9)).state = sampleState :=
  have h := Tuple.at_put_prim_bounds_error_iff sampleState 0 5 (Object.fixnum 9)
  have hb := h.2.1.mpr (Or.inr (by decide))
  ⟨hb, h.2.2.2 hb⟩

/-! ## `Tuple::copy_from` -/

namespace Tuple

theorem copy_from.right_shift_spec (src_start : Int) :
    ∀ (dest_idx src_idx : Int) (f : List Object),
      0 ≤ src_start → src_idx ≤ dest_idx → dest_idx < f.length →
      (copy_from.right_shift src_start dest_idx src_idx f).length = f.length ∧
      ∀ i : Int, fieldGet (copy_from.right_shift src_start dest_idx src_idx f) i
        = if src_start + (dest_idx - src_idx) ≤ i ∧ i ≤ dest_idx
          then fieldGet f (i - (dest_idx - src_idx)) else fieldGet f i := by
  intro dest_idx src_idx f
  induction dest_idx, src_idx, f using copy_from.right_shift.induct src_start with
  | case1 dest_idx src_idx f hge ih =>
    intro h0 hle hlt
    rw [copy_from.right_shift, if_pos hge]
    have ih' := ih h0 (by omega) (by rw [length_fieldSet]; omega)
    refine ⟨by rw [ih'.1, length_fieldSet], fun i => ?_⟩
    rw [ih'.2 i]
    simp only [fieldGet_fieldSet]
    split_ifs <;> first | rfl | omega | (congr 1; omega)
  | case2 dest_idx src_idx f hge =>
    intro h0 hle hlt
    rw [copy_from.right_shift, if_neg hge]
    refine ⟨rfl, fun i => ?_⟩
    rw [if_neg (by omega)]

theorem copy_from.left_shift_spec (src_end : Int) :
    ∀ (dest_idx src_idx : Int) (f : List Object),
      0 ≤ dest_idx → dest_idx ≤ src_idx → src_end ≤ f.length →
      (copy_from.left_shift src_end dest_idx src_idx f).length = f.length ∧
      ∀ i : Int, fieldGet (copy_from.left_shift src_end dest_idx src_idx f) i
        = if dest_idx ≤ i ∧ i < src_end - (src_idx - dest_idx)
          then fieldGet f (i + (src_idx - dest_idx)) else fieldGet f i := by
  intro dest_idx src_idx f
  induction dest_idx, src_idx, f using copy_from.left_shift.induct src_end with
  | case1 dest_idx src_idx f hlt ih =>
    intro h0 hle hlen
    rw [copy_from.left_shift, if_pos hlt]
    have ih' := ih (by omega) (by omega) (by rw [length_fieldSet]; omega)
    refine ⟨by rw [ih'.1, length_fieldSet], fun i => ?_⟩
    rw [ih'.2 i]
    simp only [fieldGet_fieldSet]
    split_ifs <;> first | rfl | omega | (congr 1; omega)
  | case2 dest_idx src_idx f hlt =>
    intro h0 hle hlen
    rw [copy_from.left_shift, if_neg hlt]
    refine ⟨rfl, fun i => ?_⟩
    rw [if_neg (by omega)]

theorem copy_from.copy_loop_spec (self other : Nat) (src_end : Int) (hne : other ≠ self) :
    ∀ (src dst : Int) (st : State),
      0 ≤ src → 0 ≤ dst → dst + (src_end - src) ≤ num_fields st self →
      ((copy_from.copy_loop self other src_end src dst st).fields self).length
          = (st.fields self).length ∧
      (∀ a, a ≠ self →
        (copy_from.copy_loop self other src_end src dst st).fields a = st.fields a) ∧
      ∀ i : Int, fieldGet ((copy_from.copy_loop self other src_end src dst st).fields self) i
        = if dst ≤ i ∧ i < dst + (src_end - src)
          then fieldGet (st.fields other) (i - dst + src) else fieldGet (st.fields self) i := by
  intro src dst st
  induction src, dst, st using copy_from.copy_loop.induct self other src_end with
  | case1 src dst st hlt obj st1 ih =>
    intro h0 h1 hb
    rw [copy_from.copy_loop, if_pos hlt]
    have hv : self < st.heap.length := valid_of_lt_num_fields st self dst h1 (by omega)
    have hself : (st1.write_barrier self obj).fields self = fieldSet (st.fields self) dst obj := by
      rw [State.fields_write_barrier]; exact State.fields_setFields_self _ _ _ hv
    have hoth : ∀ a, a ≠ self → (st1.write_barrier self obj).fields a = st.fields a := by
      intro a ha
      rw [State.fields_write_barrier]; exact State.fields_setFields_ne _ _ _ _ ha
    have hn : num_fields (st1.write_barrier self obj) self = num_fields st self := by
      simp only [num_fields, hself, length_fieldSet]
    have ih' := ih (by omega) (by omega) (by rw [hn]; omega)
    have hb' : dst + (src_end - src) ≤ ((st.fields self).length : Int) := hb
    refine ⟨?_, ?_, fun i => ?_⟩
    · simp only []
      rw [ih'.1, hself, length_fieldSet]
    · intro a ha
      simp only []
      rw [ih'.2.1 a ha, hoth a ha]
    · simp only []
      rw [ih'.2.2 i, hself, hoth other hne]
      simp only [fieldGet_fieldSet]
      split_ifs <;> first | rfl | omega | (congr 1; omega) | (show fieldGet _ _ = fieldGet _ _; congr 1; omega)
  | case2 src dst st hlt =>
    intro h0 h1 hb
    rw [copy_from.copy_loop, if_neg hlt]
    refine ⟨rfl, fun _ _ => rfl, fun i => ?_⟩
    rw [if_neg (by omega)]

/-- C3: `copy_from` with `other == this` is a memmove. For in-bounds
`(src_start, len, dst_start)` it returns `this`, keeps the length, leaves in every
slot `dst_start + k` (`k < len`) the element the original array had at
`src_start + k`, whichever way the two ranges overlap, and leaves every slot
outside `[dst_start, dst_start + len)` as it was. -/
theorem copy_from_self_memmove (st : State) (self : Nat) (src_start len dst_start : Int)
    (hs : 0 ≤ src_start) (hd : 0 ≤ dst_start) (hl : 0 ≤ len)
    (hsb : src_start + len ≤ num_fields st self)
    (hdb : dst_start + len ≤ num_fields st self) :
    (copy_from st self self src_start len dst_start).value = Except.ok self ∧
    ((copy_from st self self src_start len dst_start).state.fields self).length
      = (st.fields self).length ∧
    (∀ k : Int, 0 ≤ k → k < len →
      fieldGet ((copy_from st self self src_start len dst_start).state.fields self)
          (dst_start + k)
        = fieldGet (st.fields self) (src_start + k)) ∧
    (∀ i : Int, ¬ (dst_start ≤ i ∧ i < dst_start + len) →
      fieldGet ((copy_from st self self src_start len dst_start).state.fields self) i
        = fieldGet (st.fields self) i) := by
  have hn : num_fields st self = ((st.fields self).length : Int) := rfl
  have c1 : ¬ (src_start < 0 ∨ src_start > num_fields st self) := by omega
  have c2 : ¬ (dst_start < 0 ∨ dst_start > num_fields st self) := by omega
  have c3 : ¬ (len < 0) := by omega
  have c4 : ¬ (src_start + len > num_fields st self) := by omega
  have c5 : ¬ (len > num_fields st self - dst_start) := by omega
  by_cases he : src_start = dst_start
  · have hcf : copy_from st self self src_start len dst_start = ⟨Except.ok self, st⟩ := by
      simp only [copy_from, if_neg c1, if_neg c2, if_neg c3, if_neg c4, if_neg c5, if_true,
        if_pos he]
    rw [hcf]
    subst he
    exact ⟨rfl, rfl, fun _ _ _ => rfl, fun _ _ => rfl⟩
  · by_cases hlt : src_start < dst_start
    · have hcf : copy_from st self self src_start len dst_start
          = ⟨Except.ok self, st.setFields self
              (copy_from.right_shift src_start (dst_start + len - 1) (src_start + len - 1)
                (st.fields self))⟩ := by
        simp only [copy_from, if_neg c1, if_neg c2, if_neg c3, if_neg c4, if_neg c5, if_true,
          if_neg he, if_pos hlt]
      rw [hcf]
      have sp := copy_from.right_shift_spec src_start (dst_start + len - 1)
        (src_start + len - 1) (st.fields self) hs (by omega) (by omega)
      have hsf := State.fields_setFields_same_length st self _ sp.1
      show _ ∧ (State.fields (st.setFields self _) self).length = _ ∧
        (∀ k : Int, 0 ≤ k → k < len →
          fieldGet (State.fields (st.setFields self _) self) (dst_start + k) = _) ∧
        (∀ i : Int, ¬ (dst_start ≤ i ∧ i < dst_start + len) →
          fieldGet (State.fields (st.setFields self _) self) i = _)
      rw [hsf]
      refine ⟨rfl, sp.1, fun k hk0 hk1 => ?_, fun i hi => ?_⟩
      · rw [sp.2, if_pos (by omega)]
        congr 1; omega
      · rw [sp.2, if_neg (by omega)]
    · have hcf : copy_from st self self src_start len dst_start
          = ⟨Except.ok self, st.setFields self
              (copy_from.left_shift (src_start + len) dst_start src_start
                (st.fields self))⟩ := by
        simp only [copy_from, if_neg c1, if_neg c2, if_neg c3, if_neg c4, if_neg c5, if_true,
          if_neg he, if_neg hlt]
      rw [hcf]
      have sp := copy_from.left_shift_spec (src_start + len) dst_start src_start
        (st.fields self) hd (by omega) (by omega)
      have hsf := State.fields_setFields_same_length st self _ sp.1
      show _ ∧ (State.fields (st.setFields self _) self).length = _ ∧
        (∀ k : Int, 0 ≤ k → k < len →
          fieldGet (State.fields (st.setFields self _) self) (dst_start + k) = _) ∧
        (∀ i : Int, ¬ (dst_start ≤ i ∧ i < dst_start + len) →
          fieldGet (State.fields (st.setFields self _) self) i = _)
      rw [hsf]
      refine ⟨rfl, sp.1, fun k hk0 hk1 => ?_, fun i hi => ?_⟩
      · rw [sp.2, if_pos (by omega)]
        congr 1; omega
      · rw [sp.2, if_neg (by omega)]

end Tuple

/-- An instance of `copy_from_self_memmove`: on `[1,2,3,4,5]`, copying 3 elements from
index 0 to index 2 gives `[1,2,1,2,3]`. -/
theorem copy_from_self_memmove_witness :
    (Tuple.copy_from sampleState 0 0 0 3 2).state.fields 0
        = [Object.fixnum 1, Object.fixnum 2, Object.fixnum 1, Object.fixnum 2, Object.fixnum 3] ∧
      fieldGet ((Tuple.copy_from sampleState 0 0 0 3 2).state.fields 0) (2 + 2)
        = fieldGet (sampleState.fields 0) (0 + 2) :=
  ⟨by simp [Tuple.copy_from, sampleState, Tuple.num_fields, State.fields, State.tuple,
      Tuple.copy_from.right_shift, fieldGet, fieldSet, State.setFields],
    (Tuple.copy_from_self_memmove sampleState 0 0 3 2 (by decide) (by decide) (by decide)
      (by decide) (by decide)).2.2.1 2 (by decide) (by decide)⟩

namespace Tuple

/-- C4: `copy_from` raises the bounds-exceeded error exactly when `src_start < 0`,
`dst_start < 0`, `len < 0`, `src_start + len` exceeds the size of the source, or
`dst_start + len` exceeds the size of the receiver; when it raises, the state, and
so every slot of both arrays, is as before the call. -/
theorem copy_from_bounds_error_iff (st : State) (self other : Nat)
    (src_start len dst_start : Int) :
    ((copy_from st self other src_start len dst_start).isBoundsError ↔
      (src_start < 0 ∨ dst_start < 0 ∨ len < 0 ∨
        src_start + len > num_fields st other ∨ dst_start + len > num_fields st self)) ∧
    ((copy_from st self other src_start len dst_start).isBoundsError →
      (copy_from st self other src_start len dst_start).state = st) := by
  have hn := num_fields_nonneg st self
  have ho := num_fields_nonneg st other
  unfold copy_from
  simp only []
  split_ifs with c1 c2 c3 c4 c5 c6 c7 c8
  all_goals first
    | exact ⟨⟨fun _ => by omega, fun _ => bounds_exceeded_error_isBoundsError _ _ _ _⟩,
        fun _ => rfl⟩
    | exact ⟨⟨fun h => absurd h (not_isBoundsError_ok _ _), fun h => by omega⟩,
        fun h => absurd h (not_isBoundsError_ok _ _)⟩

end Tuple

/-- An instance of `copy_from_bounds_error_iff`: a source range `[3, 6)` on a source of
five fields raises and leaves the state as it was. -/
theorem copy_from_bounds_error_iff_witness :
    (Tuple.copy_from sampleState 0 1 3 3 0).isBoundsError ∧
      (Tuple.copy_from sampleState 0 1 3 3 0).state = sampleState :=
  have h := Tuple.copy_from_bounds_error_iff sampleState 0 1 3 3 0
  have hb := h.1.mpr (Or.inr (Or.inr (Or.inr (Or.inl (by decide)))))
  ⟨hb, h.2 hb⟩

namespace Tuple

/-- C5: `copy_from` between two different arrays. For in-bounds
`(src_start, len, dst_start)` it returns the receiver, keeps its length, leaves in
every slot `dst_start + k` (`k < len`) of the receiver the element of the source at
`src_start + k`, leaves every other slot of the receiver as it was, and leaves the
source, like every array other than the receiver, unchanged. -/
theorem copy_from_distinct (st : State) (self other : Nat) (src_start len dst_start : Int)
    (hne : other ≠ self)
    (hs : 0 ≤ src_start) (hd : 0 ≤ dst_start) (hl : 0 ≤ len)
    (hsb : src_start + len ≤ num_fields st other)
    (hdb : dst_start + len ≤ num_fields st self) :
    (copy_from st self other src_start len dst_start).value = Except.ok self ∧
    ((copy_from st self other src_start len dst_start).state.fields self).length
      = (st.fields self).length ∧
    (∀ k : Int, 0 ≤ k → k < len →
      fieldGet ((copy_from st self other src_start len dst_start).state.fields self)
          (dst_start + k)
        = fieldGet (st.fields other) (src_start + k)) ∧
    (∀ i : Int, ¬ (dst_start ≤ i ∧ i < dst_start + len) →
      fieldGet ((copy_from st self other src_start len dst_start).state.fields self) i
        = fieldGet (st.fields self) i) ∧
    (∀ a, a ≠ self →
      (copy_from st self other src_start len dst_start).state.fields a = st.fields a) := by
  have c1 : ¬ (src_start < 0 ∨ src_start > num_fields st other) := by omega
  have c2 : ¬ (dst_start < 0 ∨ dst_start > num_fields st self) := by omega
  have c3 : ¬ (len < 0) := by omega
  have c4 : ¬ (src_start + len > num_fields st other) := by omega
  have c5 : ¬ (len > num_fields st self - dst_start) := by omega
  have hcf : copy_from st self other src_start len dst_start
      = ⟨Except.ok self,
          copy_from.copy_loop self other (src_start + len) src_start dst_start st⟩ := by
    simp only [copy_from, if_neg c1, if_neg c2, if_neg c3, if_neg c4, if_neg c5, if_neg hne]
  rw [hcf]
  have sp := copy_from.copy_loop_spec self other (src_start + len) hne src_start dst_start st
    hs hd (by omega)
  refine ⟨rfl, sp.1, fun k hk0 hk1 => ?_, fun i hi => ?_, sp.2.1⟩
  · rw [sp.2.2, if_pos (by omega)]
    congr 1; omega
  · rw [sp.2.2, if_neg (by omega)]

end Tuple

/-- An instance of `copy_from_distinct`: three elements of the tuple at address 1 copied
into the tuple at address 0. -/
theorem copy_from_distinct_witness :
    (Tuple.copy_from sampleState 0 1 1 3 2).value = Except.ok 0 ∧
      fieldGet ((Tuple.copy_from sampleState 0 1 1 3 2).state.fields 0) (2 + 1)
        = fieldGet (sampleState.fields 1) (1 + 1) ∧
      (Tuple.copy_from sampleState 0 1 1 3 2).state.fields 1 = sampleState.fields 1 :=
  have h := Tuple.copy_from_distinct sampleState 0 1 1 3 2 (by decide) (by decide) (by decide)
    (by decide) (by decide) (by decide)
  ⟨h.1, h.2.2.1 1 (by decide) (by decide), h.2.2.2.2 1 (by decide)⟩

/-! ## `Tuple::delete_inplace` and `Tuple::delete_inplace_prim` -/

namespace Tuple

theorem delete_inplace.cleanup_spec (rend : Int) :
    ∀ (i : Int) (f : List Object) (A G S : List Object),
      f = A ++ G ++ S → i = A.length → rend = i + G.length →
      delete_inplace.cleanup rend i f = A ++ List.replicate G.length Object.cNil ++ S := by
  intro i f
  induction i, f using delete_inplace.cleanup.induct rend with
  | case1 i f hlt ih =>
    intro A G S hf hi hr
    rw [delete_inplace.cleanup, if_pos hlt]
    cases G with
    | nil => simp at hr; omega
    | cons g G =>
      have hset : fieldSet f i Object.cNil = (A ++ [Object.cNil]) ++ G ++ S := by
        rw [hf]
        simp only [List.append_assoc, List.cons_append, List.nil_append]
        exact fieldSet_append_cons A (G ++ S) g Object.cNil i hi
      rw [ih (A ++ [Object.cNil]) G S hset (by simp; omega) (by simp at hr; omega)]
      simp [List.replicate_succ]
  | case2 i f hlt =>
    intro A G S hf hi hr
    rw [delete_inplace.cleanup, if_neg hlt]
    have : G = [] := by
      apply List.eq_nil_of_length_eq_zero
      omega
    subst this
    simpa using hf

theorem delete_inplace.compact_spec (obj : Object) (rend : Int) :
    ∀ (i j : Int) (f : List Object) (A G R S : List Object),
      f = A ++ G ++ R ++ S → j = A.length → i = j + G.length → rend = i + R.length →
      ∃ G' : List Object,
        G'.length + (R.filter (fun x => decide (x ≠ obj))).length = G.length + R.length ∧
        delete_inplace.compact obj rend i j f
          = (j + ((R.filter (fun x => decide (x ≠ obj))).length : Int),
              A ++ R.filter (fun x => decide (x ≠ obj)) ++ G' ++ S) := by
  intro i j f
  induction i, j, f using delete_inplace.compact.induct obj rend with
  | case1 i j f hlt val hval ih =>
    intro A G R S hf hj hi hr
    rw [delete_inplace.compact, if_pos hlt]
    cases R with
    | nil => simp at hr; omega
    | cons r R =>
      have hget : fieldGet f i = r := by
        rw [hf]
        have := fieldGet_append_cons (A ++ G) (R ++ S) r i (by simp; omega)
        simpa using this
      have hv : val = r := hget
      have hr' : r ≠ obj := by rw [← hv]; exact hval
      simp only [] 
      rw [if_pos hval]
      cases G with
      | nil =>
        have hset : fieldSet f j val = (A ++ [r]) ++ [] ++ R ++ S := by
          rw [hf, hv]
          simp only [List.append_assoc, List.cons_append, List.nil_append, List.append_nil]
          exact fieldSet_append_cons A (R ++ S) r r j hj
        obtain ⟨G', hG', hres⟩ := ih (A ++ [r]) [] R S hset (by simp; omega)
          (by simp at hi ⊢; omega) (by simp at hr; omega)
        refine ⟨G', ?_, ?_⟩
        · rw [List.filter_cons_of_pos (by simpa using hr')]
          simp only [List.length_cons, List.length_nil] at hG' ⊢
          omega
        · rw [hres, List.filter_cons_of_pos (by simpa using hr')]
          simp only [List.length_cons, List.append_assoc, List.cons_append, List.nil_append,
            Prod.mk.injEq, and_true]
          push_cast; omega
      | cons g G =>
        have hset : fieldSet f j val = (A ++ [r]) ++ (G ++ [r]) ++ R ++ S := by
          rw [hf, hv]
          simp only [List.append_assoc, List.cons_append, List.nil_append]
          exact fieldSet_append_cons A (G ++ r :: (R ++ S)) g r j hj
        obtain ⟨G', hG', hres⟩ := ih (A ++ [r]) (G ++ [r]) R S hset (by simp; omega)
          (by simp at hi ⊢; omega) (by simp at hr; omega)
        refine ⟨G', ?_, ?_⟩
        · rw [List.filter_cons_of_pos (by simpa using hr')]
          simp only [List.length_cons, List.length_append, List.length_nil] at hG' ⊢
          omega
        · rw [hres, List.filter_cons_of_pos (by simpa using hr')]
          simp only [List.length_cons, List.append_assoc, List.cons_append, List.nil_append,
            Prod.mk.injEq, and_true]
          push_cast; omega
  | case2 i j f hlt val hval ih =>
    intro A G R S hf hj hi hr
    rw [delete_inplace.compact, if_pos hlt]
    cases R with
    | nil => simp at hr; omega
    | cons r R =>
      have hget : fieldGet f i = r := by
        rw [hf]
        have := fieldGet_append_cons (A ++ G) (R ++ S) r i (by simp; omega)
        simpa using this
      have hv : val = r := hget
      have hr' : r = obj := by rw [← hv]; exact not_not.mp hval
      simp only []
      rw [if_neg hval]
      have hf' : f = A ++ (G ++ [r]) ++ R ++ S := by
        rw [hf]; simp
      obtain ⟨G', hG', hres⟩ := ih A (G ++ [r]) R S hf' hj (by simp; omega)
        (by simp at hr; omega)
      refine ⟨G', ?_, ?_⟩
      · rw [List.filter_cons_of_neg (by simpa using hr')]
        simp only [List.length_cons, List.length_append, List.length_nil] at hG' ⊢
        omega
      · rw [hres, List.filter_cons_of_neg (by simpa using hr')]
  | case3 i j f hlt =>
    intro A G R S hf hj hi hr
    rw [delete_inplace.compact, if_neg hlt]
    have : R = [] := by
      apply List.eq_nil_of_length_eq_zero
      omega
    subst this
    refine ⟨G, by simp, ?_⟩
    rw [hf]; simp

theorem delete_inplace.scan_spec (obj : Object) (rend : Int) :
    ∀ (i : Int) (f : List Object) (A R S : List Object),
      f = A ++ R ++ S → i = A.length → rend = i + R.length →
      delete_inplace.scan obj rend i f
        = ((R.count obj : Int),
            A ++ R.filter (fun x => decide (x ≠ obj))
              ++ List.replicate (R.count obj) Object.cNil ++ S) := by
  intro i f
  induction i, f using delete_inplace.scan.induct obj rend with
  | case1 i f hlt heq =>
    intro A R S hf hi hr
    rw [delete_inplace.scan, if_pos hlt, if_pos heq]
    cases R with
    | nil => simp at hr; omega
    | cons r R =>
      have hget : fieldGet f i = r := by
        rw [hf]
        have := fieldGet_append_cons A (R ++ S) r i hi
        simpa using this
      have hr' : r = obj := by rw [← hget]; exact heq
      have hf' : f = A ++ [r] ++ R ++ S := by rw [hf]; simp
      obtain ⟨G', hG', hres⟩ := delete_inplace.compact_spec obj rend (i + 1) i f A [r] R S hf'
        hi (by simp) (by simp at hr; omega)
      have hcnt := count_add_length_filter obj R
      simp only [List.length_cons, List.length_nil] at hG'
      have hcl := delete_inplace.cleanup_spec rend
        (i + ((R.filter (fun x => decide (x ≠ obj))).length : Int))
        (A ++ R.filter (fun x => decide (x ≠ obj)) ++ G' ++ S)
        (A ++ R.filter (fun x => decide (x ≠ obj))) G' S rfl (by simp; omega)
        (by simp at hr; omega)
      simp only []
      rw [hres]
      simp only []
      rw [hcl, List.filter_cons_of_neg (by simpa using hr'), hr', List.count_cons_self]
      have hGl : G'.length = R.count obj + 1 := by omega
      rw [hGl]
      simp only [Prod.mk.injEq, and_true]
      simp at hr
      push_cast
      omega
  | case2 i f hlt hne ih =>
    intro A R S hf hi hr
    rw [delete_inplace.scan, if_pos hlt, if_neg hne]
    cases R with
    | nil => simp at hr; omega
    | cons r R =>
      have hget : fieldGet f i = r := by
        rw [hf]
        have := fieldGet_append_cons A (R ++ S) r i hi
        simpa using this
      have hr' : r ≠ obj := by rw [← hget]; exact hne
      have hf' : f = (A ++ [r]) ++ R ++ S := by rw [hf]; simp
      rw [ih (A ++ [r]) R S hf' (by simp; omega) (by simp at hr; omega)]
      rw [List.count_cons_of_ne (Ne.symm hr'), List.filter_cons_of_pos (by simpa using hr')]
      simp
  | case3 i f hlt =>
    intro A R S hf hi hr
    rw [delete_inplace.scan, if_neg hlt]
    have : R = [] := by
      apply List.eq_nil_of_length_eq_zero
      omega
    subst this
    simp [hf]

/-- C6: for a range `[lend, lend + len)` inside the array, `delete_inplace` (and the
primitive around it, which does not raise) returns the number of slots of the
range that held `v`, and leaves the fields before the range, then the elements of
the range that differ from `v` in their original order, then `nil` in the rest of
the range, then the fields after the range; the length is as before. -/
theorem delete_inplace_spec (st : State) (self : Nat) (lend len : Int) (v : Object)
    (h0 : 0 ≤ lend) (h1 : 0 ≤ len) (h2 : lend + len ≤ num_fields st self) :
    delete_inplace (st.fields self) lend len v
      = ((((((st.fields self).drop lend.toNat).take len.toNat).count v : Nat) : Int),
          (st.fields self).take lend.toNat
            ++ (((st.fields self).drop lend.toNat).take len.toNat).filter
                (fun x => decide (x ≠ v))
            ++ List.replicate ((((st.fields self).drop lend.toNat).take len.toNat).count v)
                Object.cNil
            ++ (st.fields self).drop (lend + len).toNat) ∧
    (delete_inplace_prim st self lend len v).value
      = Except.ok (((((st.fields self).drop lend.toNat).take len.toNat).count v : Nat) : Int) ∧
    (delete_inplace_prim st self lend len v).state.fields self
      = (st.fields self).take lend.toNat
          ++ (((st.fields self).drop lend.toNat).take len.toNat).filter
              (fun x => decide (x ≠ v))
          ++ List.replicate ((((st.fields self).drop lend.toNat).take len.toNat).count v)
              Object.cNil
          ++ (st.fields self).drop (lend + len).toNat ∧
    ((delete_inplace_prim st self lend len v).state.fields self).length
      = (st.fields self).length := by
  have hn : num_fields st self = ((st.fields self).length : Int) := rfl
  have hsplit := fields_split (st.fields self) lend.toNat len.toNat
  have htn : (lend + len).toNat = lend.toNat + len.toNat := by omega
  have hA : ((st.fields self).take lend.toNat).length = lend.toNat := by
    rw [List.length_take]; omega
  have hR : (((st.fields self).drop lend.toNat).take len.toNat).length = len.toNat := by
    rw [List.length_take, List.length_drop]; omega
  have hS : ((st.fields self).drop (lend + len).toNat).length
      = (st.fields self).length - (lend.toNat + len.toNat) := by
    rw [List.length_drop, htn]
  have hcnt := count_add_length_filter v (((st.fields self).drop lend.toNat).take len.toNat)
  have hdel : delete_inplace (st.fields self) lend len v
      = ((((((st.fields self).drop lend.toNat).take len.toNat).count v : Nat) : Int),
          (st.fields self).take lend.toNat
            ++ (((st.fields self).drop lend.toNat).take len.toNat).filter
                (fun x => decide (x ≠ v))
            ++ List.replicate ((((st.fields self).drop lend.toNat).take len.toNat).count v)
                Object.cNil
            ++ (st.fields self).drop (lend + len).toNat) := by
    unfold delete_inplace
    simp only []
    rw [htn]
    exact delete_inplace.scan_spec v (lend + len) lend (st.fields self) _ _ _ hsplit
      (by rw [hA]; omega) (by rw [hR]; omega)
  have hlen : ((st.fields self).take lend.toNat
          ++ (((st.fields self).drop lend.toNat).take len.toNat).filter
              (fun x => decide (x ≠ v))
          ++ List.replicate ((((st.fields self).drop lend.toNat).take len.toNat).count v)
              Object.cNil
          ++ (st.fields self).drop (lend + len).toNat).length = (st.fields self).length := by
    simp only [List.length_append, List.length_replicate, hA, hS]
    omega
  by_cases hc : num_fields st self = 0 ∨ len = 0
  · have hcf : delete_inplace_prim st self lend len v = ⟨Except.ok 0, st⟩ := by
      simp only [delete_inplace_prim, if_pos hc]
    have hRnil : ((st.fields self).drop lend.toNat).take len.toNat = [] := by
      apply List.eq_nil_of_length_eq_zero
      rw [hR]; omega
    rw [hcf]
    refine ⟨hdel, ?_, ?_, rfl⟩
    · rw [hRnil]; rfl
    · show st.fields self = _
      rw [hRnil]
      have hz : len.toNat = 0 := by omega
      rw [htn, hz]
      simp
  · have c2 : ¬ (lend < 0 ∨ lend ≥ num_fields st self) := by omega
    have c3 : ¬ (lend + len < 0 ∨ lend + len > num_fields st self) := by omega
    have hcf : delete_inplace_prim st self lend len v
        = ⟨Except.ok (delete_inplace (st.fields self) lend len v).1,
            st.setFields self (delete_inplace (st.fields self) lend len v).2⟩ := by
      simp only [delete_inplace_prim, if_neg hc, if_neg c2, if_neg c3]
    rw [hcf, hdel]
    have hsf := State.fields_setFields_same_length st self _ hlen
    show _ ∧ _ ∧ State.fields (st.setFields self _) self = _ ∧
      (State.fields (st.setFields self _) self).length = _
    rw [hsf]
    exact ⟨rfl, rfl, rfl, hlen⟩

end Tuple

/-- An instance of `delete_inplace_spec`: deleting 1 from `[1,2,1,3,1]` leaves
`[2,3,nil,nil,nil]` and returns 3. -/
theorem delete_inplace_spec_witness :
    (Tuple.delete_inplace_prim sampleState 1 0 5 (Object.fixnum 1)).value = Except.ok 3 ∧
    (Tuple.delete_inplace_prim sampleState 1 0 5 (Object.fixnum 1)).state.fields 1
      = [Object.fixnum 2, Object.fixnum 3, Object.cNil, Object.cNil, Object.cNil] :=
  have h := Tuple.delete_inplace_spec sampleState 1 0 5 (Object.fixnum 1) (by decide)
    (by decide) (by decide)
  ⟨h.2.1, h.2.2.1⟩

/-- The claim C7 as written fails on the code: on the empty tuple (address 2 of
`sampleState`) a start of 5 lies outside `[0, 0)`, and on the five-element tuple
at address 0 a start of 7 with length 0 lies outside `[0, 5)`, yet neither call
raises. -/
theorem delete_inplace_prim_no_error_on_empty_or_zero_length :
    ((5 : Int) ≥ Tuple.num_fields sampleState 2 ∧
      ¬ (Tuple.delete_inplace_prim sampleState 2 5 3 (Object.fixnum 1)).isBoundsError) ∧
    ((7 : Int) ≥ Tuple.num_fields sampleState 0 ∧
      ¬ (Tuple.delete_inplace_prim sampleState 0 7 0 (Object.fixnum 1)).isBoundsError) := by
  refine ⟨⟨by decide, ?_⟩, ⟨by decide, ?_⟩⟩
  · rintro ⟨m, i, s, h⟩
    simp [Tuple.delete_inplace_prim, Tuple.num_fields, sampleState, State.fields,
      State.tuple] at h
  · rintro ⟨m, i, s, h⟩
    simp [Tuple.delete_inplace_prim, Tuple.num_fields, sampleState, State.fields,
      State.tuple] at h

namespace Tuple

/-- C7, as the code has it: `delete_inplace_prim` raises the bounds-exceeded error
exactly when the array is non-empty, the range length is non-zero, and the start
lies outside `[0, n)` or the end `start + length` is below 0 or above `n`; on an
empty array or with a zero length it returns 0 and leaves the state untouched,
whatever the start. -/
theorem delete_inplace_prim_bounds_error_iff (st : State) (self : Nat) (start length : Int)
    (obj : Object) :
    ((delete_inplace_prim st self start length obj).isBoundsError ↔
      (num_fields st self ≠ 0 ∧ length ≠ 0 ∧
        (start < 0 ∨ start ≥ num_fields st self ∨ start + length < 0 ∨
          start + length > num_fields st self))) ∧
    ((num_fields st self = 0 ∨ length = 0) →
      (delete_inplace_prim st self start length obj).value = Except.ok 0 ∧
      (delete_inplace_prim st self start length obj).state = st) := by
  unfold delete_inplace_prim
  simp only []
  split_ifs with c1 c2 c3
  · exact ⟨⟨fun h => absurd h (not_isBoundsError_ok _ _), fun h => by omega⟩,
      fun _ => ⟨rfl, rfl⟩⟩
  · exact ⟨⟨fun _ => by omega, fun _ => bounds_exceeded_error_isBoundsError _ _ _ _⟩,
      fun h => absurd h c1⟩
  · exact ⟨⟨fun _ => by omega, fun _ => bounds_exceeded_error_isBoundsError _ _ _ _⟩,
      fun h => absurd h c1⟩
  · exact ⟨⟨fun h => absurd h (not_isBoundsError_ok _ _), fun h => by omega⟩,
      fun h => absurd h c1⟩

end Tuple

/-- An instance of `delete_inplace_prim_bounds_error_iff`: a start of 7 with length 2 on
five fields raises; on the empty tuple the call returns 0. -/
theorem delete_inplace_prim_bounds_error_iff_witness :
    (Tuple.delete_inplace_prim sampleState 0 7 2 (Object.fixnum 1)).isBoundsError ∧
    ((Tuple.delete_inplace_prim sampleState 2 5 3 (Object.fixnum 1)).value = Except.ok 0 ∧
      (Tuple.delete_inplace_prim sampleState 2 5 3 (Object.fixnum 1)).state = sampleState) :=
  ⟨(Tuple.delete_inplace_prim_bounds_error_iff sampleState 0 7 2 (Object.fixnum 1)).1.mpr
      ⟨by decide, by decide, Or.inr (Or.inl (by decide))⟩,
    (Tuple.delete_inplace_prim_bounds_error_iff sampleState 2 5 3 (Object.fixnum 1)).2
      (Or.inl (by decide))⟩

/-! ## `Tuple::lshift_inplace` -/

namespace Tuple

theorem lshift_inplace.shift_spec (size : Int) :
    ∀ (i j : Int) (f : List Object),
      0 ≤ i → i ≤ j → size ≤ f.length →
      (lshift_inplace.shift size i j f).2.length = f.length ∧
      (lshift_inplace.shift size i j f).1 = (if j < size then i + (size - j) else i) ∧
      ∀ x : Int, fieldGet (lshift_inplace.shift size i j f).2 x
        = if i ≤ x ∧ x < i + (size - j) then fieldGet f (x + (j - i)) else fieldGet f x := by
  intro i j f
  induction i, j, f using lshift_inplace.shift.induct size with
  | case1 i j f hlt ih =>
    intro h0 hle hlen
    rw [lshift_inplace.shift, if_pos hlt]
    have ih' := ih (by omega) (by omega) (by rw [length_fieldSet]; omega)
    refine ⟨by rw [ih'.1, length_fieldSet], ?_, fun x => ?_⟩
    · rw [ih'.2.1]; split_ifs <;> omega
    · rw [ih'.2.2 x]
      simp only [fieldGet_fieldSet]
      split_ifs <;> first | rfl | omega | (congr 1; omega)
  | case2 i j f hlt =>
    intro h0 hle hlen
    rw [lshift_inplace.shift, if_neg hlt]
    refine ⟨rfl, by rw [if_neg hlt], fun x => ?_⟩
    rw [if_neg (by omega)]

theorem lshift_inplace.clear_spec (size : Int) :
    ∀ (i : Int) (f : List Object),
      0 ≤ i → size ≤ f.length →
      (lshift_inplace.clear size i f).length = f.length ∧
      ∀ x : Int, fieldGet (lshift_inplace.clear size i f) x
        = if i ≤ x ∧ x < size then Object.cNil else fieldGet f x := by
  intro i f
  induction i, f using lshift_inplace.clear.induct size with
  | case1 i f hlt ih =>
    intro h0 hlen
    rw [lshift_inplace.clear, if_pos hlt]
    have ih' := ih (by omega) (by rw [length_fieldSet]; omega)
    refine ⟨by rw [ih'.1, length_fieldSet], fun x => ?_⟩
    rw [ih'.2 x]
    simp only [fieldGet_fieldSet]
    split_ifs <;> first | rfl | omega
  | case2 i f hlt =>
    intro h0 hlen
    rw [lshift_inplace.clear, if_neg hlt]
    refine ⟨rfl, fun x => ?_⟩
    rw [if_neg (by omega)]

/-- C8: for a shift `s ≥ 0`, `lshift_inplace(s)` returns the receiver and keeps its
length; afterwards every index `i` with `i + s < n` holds the original element at
`i + s`, every other index below `n` holds `nil`, and for `s = 0` the state is
untouched. -/
theorem lshift_inplace_spec (st : State) (self : Nat) (s : Int) (hs : 0 ≤ s) :
    (lshift_inplace st self s).value = Except.ok self ∧
    ((lshift_inplace st self s).state.fields self).length = (st.fields self).length ∧
    (∀ i : Int, 0 ≤ i → i + s < num_fields st self →
      fieldGet ((lshift_inplace st self s).state.fields self) i
        = fieldGet (st.fields self) (i + s)) ∧
    (∀ i : Int, 0 ≤ i → i < num_fields st self → ¬ (i + s < num_fields st self) →
      fieldGet ((lshift_inplace st self s).state.fields self) i = Object.cNil) ∧
    (s = 0 → (lshift_inplace st self s).state = st) := by
  have hn : num_fields st self = ((st.fields self).length : Int) := rfl
  have c1 : ¬ ¬ (s ≥ 0) := by omega
  by_cases hpos : s > 0
  · have hcf : lshift_inplace st self s
        = ⟨Except.ok self, st.setFields self
            (lshift_inplace.clear (num_fields st self)
              (lshift_inplace.shift (num_fields st self) 0 s (st.fields self)).1
              (lshift_inplace.shift (num_fields st self) 0 s (st.fields self)).2)⟩ := by
      simp only [lshift_inplace, if_neg c1, if_pos hpos]
    rw [hcf]
    have sp := lshift_inplace.shift_spec (num_fields st self) 0 s (st.fields self)
      (le_refl 0) hs (by omega)
    have hi0 : 0 ≤ (lshift_inplace.shift (num_fields st self) 0 s (st.fields self)).1 := by
      rw [sp.2.1]; split_ifs <;> omega
    have cp := lshift_inplace.clear_spec (num_fields st self)
      (lshift_inplace.shift (num_fields st self) 0 s (st.fields self)).1
      (lshift_inplace.shift (num_fields st self) 0 s (st.fields self)).2 hi0
      (by rw [sp.1]; omega)
    have hlen := cp.1.trans sp.1
    have hsf := State.fields_setFields_same_length st self _ hlen
    show _ ∧ (State.fields (st.setFields self _) self).length = _ ∧
      (∀ i : Int, 0 ≤ i → i + s < num_fields st self →
        fieldGet (State.fields (st.setFields self _) self) i = _) ∧
      (∀ i : Int, 0 ≤ i → i < num_fields st self → ¬ (i + s < num_fields st self) →
        fieldGet (State.fields (st.setFields self _) self) i = _) ∧ _
    rw [hsf]
    refine ⟨rfl, hlen, fun i hi0 hi1 => ?_, fun i hi0 hi1 hi2 => ?_, fun h => by omega⟩
    · rw [cp.2, sp.2.1, sp.2.2]
      rw [if_neg (by split_ifs <;> omega), if_pos (by omega)]
      congr 1; omega
    · rw [cp.2, sp.2.1]
      rw [if_pos (by split_ifs <;> omega)]
  · have hcf : lshift_inplace st self s = ⟨Except.ok self, st⟩ := by
      simp only [lshift_inplace, if_neg c1, if_neg hpos]
    rw [hcf]
    have h0 : s = 0 := by omega
    subst h0
    refine ⟨rfl, rfl, fun i _ _ => ?_, fun i _ h1 h2 => ?_, fun _ => rfl⟩
    · show fieldGet (st.fields self) i = fieldGet (st.fields self) (i + 0)
      rw [add_zero]
    · exact absurd (by omega) h2

end Tuple

/-- An instance of `lshift_inplace_spec`: `[1,2,3,4,5]` shifted by 2. -/
theorem lshift_inplace_spec_witness :
    (Tuple.lshift_inplace sampleState 0 2).value = Except.ok 0 ∧
      fieldGet ((Tuple.lshift_inplace sampleState 0 2).state.fields 0) 1
        = fieldGet (sampleState.fields 0) (1 + 2) ∧
      fieldGet ((Tuple.lshift_inplace sampleState 0 2).state.fields 0) 4 = Object.cNil :=
  have h := Tuple.lshift_inplace_spec sampleState 0 2 (by decide)
  ⟨h.1, h.2.2.1 1 (by decide) (by decide), h.2.2.2.1 4 (by decide) (by decide) (by decide)⟩

/-! ## `Tuple::reverse` -/

namespace Tuple

theorem reverse.swap_loop_spec :
    ∀ (pos1 pos2 : Int) (f : List Object),
      0 ≤ pos1 → pos2 < f.length →
      (reverse.swap_loop pos1 pos2 f).length = f.length ∧
      ∀ x : Int, fieldGet (reverse.swap_loop pos1 pos2 f) x
        = if pos1 ≤ x ∧ x ≤ pos2 then fieldGet f (pos1 + pos2 - x) else fieldGet f x := by
  intro pos1 pos2 f
  induction pos1, pos2, f using reverse.swap_loop.induct with
  | case1 pos1 pos2 f hlt tmp f1 f2 ih =>
    intro h0 hlen
    rw [reverse.swap_loop, if_pos hlt]
    have hl2 : f2.length = f.length := by
      simp only [f2, f1, length_fieldSet]
    have ih' := ih (by omega) (by rw [hl2]; omega)
    refine ⟨by simp only []; rw [ih'.1, hl2], fun x => ?_⟩
    simp only []
    rw [ih'.2 x]
    simp only [f2, f1, tmp, fieldGet_fieldSet, length_fieldSet]
    split_ifs <;> first | rfl | omega | (congr 1; omega)
  | case2 pos1 pos2 f hlt =>
    intro h0 hlen
    rw [reverse.swap_loop, if_neg hlt]
    refine ⟨rfl, fun x => ?_⟩
    split_ifs <;> first | rfl | (congr 1; omega)

/-- C9: `reverse(start, total)` returns the receiver and keeps its length. If
`total ≤ 0`, `start < 0` or `start ≥ n` the state is untouched; otherwise, with
`end = min (start + total - 1) (n - 1)`, every `i` in `[start, end]` holds the
original element at `start + end - i` and every slot outside `[start, end]` is as
it was. -/
theorem reverse_spec (st : State) (self : Nat) (start total : Int) :
    (reverse st self start total).value = Except.ok self ∧
    ((reverse st self start total).state.fields self).length = (st.fields self).length ∧
    ((total ≤ 0 ∨ start < 0 ∨ start ≥ num_fields st self) →
      (reverse st self start total).state = st) ∧
    (¬ (total ≤ 0 ∨ start < 0 ∨ start ≥ num_fields st self) →
      (∀ i : Int, start ≤ i → i ≤ min (start + total - 1) (num_fields st self - 1) →
        fieldGet ((reverse st self start total).state.fields self) i
          = fieldGet (st.fields self)
              (start + min (start + total - 1) (num_fields st self - 1) - i)) ∧
      (∀ i : Int, ¬ (start ≤ i ∧ i ≤ min (start + total - 1) (num_fields st self - 1)) →
        fieldGet ((reverse st self start total).state.fields self) i
          = fieldGet (st.fields self) i)) := by
  have hn : num_fields st self = ((st.fields self).length : Int) := rfl
  by_cases hc : total ≤ 0 ∨ start < 0 ∨ start ≥ num_fields st self
  · have hcf : reverse st self start total = ⟨Except.ok self, st⟩ := by
      simp only [reverse, if_pos hc]
    rw [hcf]
    exact ⟨rfl, rfl, fun _ => rfl, fun h => absurd hc h⟩
  · have he : (if start + total - 1 ≥ num_fields st self then num_fields st self - 1
        else start + total - 1) = min (start + total - 1) (num_fields st self - 1) := by
      split_ifs <;> omega
    have hcf : reverse st self start total
        = ⟨Except.ok self, st.setFields self
            (reverse.swap_loop start (min (start + total - 1) (num_fields st self - 1))
              (st.fields self))⟩ := by
      simp only [reverse, if_neg hc, he]
    rw [hcf]
    have sp := reverse.swap_loop_spec start (min (start + total - 1) (num_fields st self - 1))
      (st.fields self) (by omega) (by omega)
    have hsf := State.fields_setFields_same_length st self _ sp.1
    show _ ∧ (State.fields (st.setFields self _) self).length = _ ∧ _ ∧
      (_ → (∀ i : Int, start ≤ i → i ≤ min (start + total - 1) (num_fields st self - 1) →
        fieldGet (State.fields (st.setFields self _) self) i = _) ∧
      (∀ i : Int, ¬ (start ≤ i ∧ i ≤ min (start + total - 1) (num_fields st self - 1)) →
        fieldGet (State.fields (st.setFields self _) self) i = _))
    rw [hsf]
    refine ⟨rfl, sp.1, fun h => absurd h hc, fun _ => ⟨fun i h1 h2 => ?_, fun i hi => ?_⟩⟩
    · rw [sp.2, if_pos ⟨h1, h2⟩]
    · rw [sp.2, if_neg hi]

end Tuple

/-- An instance of `reverse_spec`: a negative start leaves the state alone; a total
reaching past the end is clipped. -/
theorem reverse_spec_witness :
    (Tuple.reverse sampleState 0 (-1) 3).state = sampleState ∧
      fieldGet ((Tuple.reverse sampleState 0 1 10).state.fields 0) 1
        = fieldGet (sampleState.fields 0)
            (1 + min (1 + 10 - 1) (Tuple.num_fields sampleState 0 - 1) - 1) :=
  ⟨(Tuple.reverse_spec sampleState 0 (-1) 3).2.2.1 (Or.inr (Or.inl (by decide))),
    ((Tuple.reverse_spec sampleState 0 1 10).2.2.2 (by decide)).1 1 (by decide) (by decide)⟩

/-! ## `Tuple::pattern` -/

namespace Tuple

theorem pattern.fill_spec (cnt : Int) :
    ∀ (i : Int) (val : Object) (f : List Object),
      0 ≤ i → cnt ≤ f.length →
      (pattern.fill cnt i val f).length = f.length ∧
      ∀ x : Int, fieldGet (pattern.fill cnt i val f) x
        = if i ≤ x ∧ x < cnt then val else fieldGet f x := by
  intro i val f
  induction i, val, f using pattern.fill.induct cnt with
  | case1 i val f hlt ih =>
    intro h0 hlen
    rw [pattern.fill, if_pos hlt]
    have ih' := ih (by omega) (by rw [length_fieldSet]; omega)
    refine ⟨by rw [ih'.1, length_fieldSet], fun x => ?_⟩
    rw [ih'.2 x]
    simp only [fieldGet_fieldSet]
    split_ifs <;> first | rfl | omega
  | case2 i val f hlt =>
    intro h0 hlen
    rw [pattern.fill, if_neg hlt]
    refine ⟨rfl, fun x => ?_⟩
    rw [if_neg (by omega)]

/-- C10: for a length `n ≥ 0`, `pattern(n, v)` returns a tuple at an address that
was not in use before the call; that tuple has exactly `n` fields, every one of
them holds `v`, and every tuple that existed before is as it was. -/
theorem pattern_spec (st : State) (n : Int) (v : Object) (hn : 0 ≤ n) :
    (pattern st n v).value = Except.ok st.heap.length ∧
    num_fields (pattern st n v).state st.heap.length = n ∧
    (∀ i : Int, 0 ≤ i → i < n →
      fieldGet ((pattern st n v).state.fields st.heap.length) i = v) ∧
    (pattern st n v).state.fields st.heap.length = List.replicate n.toNat v ∧
    (∀ a, a < st.heap.length → (pattern st n v).state.fields a = st.fields a) := by
  have c1 : ¬ n < 0 := by omega
  have hcf : pattern st n v
      = ⟨Except.ok (st.new_fields st.tuple_class n).1,
          ((st.new_fields st.tuple_class n).2.setFields (st.new_fields st.tuple_class n).1
            (pattern.fill n 0 v
              ((st.new_fields st.tuple_class n).2.fields
                (st.new_fields st.tuple_class n).1))).write_barrier
            (st.new_fields st.tuple_class n).1 v⟩ := by
    simp only [pattern, if_neg c1]
  have hnf := State.fields_new_fields_new st st.tuple_class n
  have haddr : (st.new_fields st.tuple_class n).1 = st.heap.length := rfl
  have sp := pattern.fill_spec n 0 v
    ((st.new_fields st.tuple_class n).2.fields (st.new_fields st.tuple_class n).1)
    (le_refl 0) (by rw [hnf, List.length_replicate]; omega)
  have hsf := State.fields_setFields_same_length (st.new_fields st.tuple_class n).2
    (st.new_fields st.tuple_class n).1 _ sp.1
  have hlen : (pattern.fill n 0 v
      ((st.new_fields st.tuple_class n).2.fields (st.new_fields st.tuple_class n).1)).length
      = n.toNat := by
    rw [sp.1, hnf, List.length_replicate]
  have hfields : (pattern st n v).state.fields st.heap.length
      = pattern.fill n 0 v
          ((st.new_fields st.tuple_class n).2.fields (st.new_fields st.tuple_class n).1) := by
    rw [hcf]
    show State.fields (State.write_barrier _ _ _) _ = _
    rw [State.fields_write_barrier, ← haddr, hsf]
  have hpt : ∀ i : Int, 0 ≤ i → i < n →
      fieldGet ((pattern st n v).state.fields st.heap.length) i = v := by
    intro i hi0 hi1
    rw [hfields, sp.2, if_pos ⟨hi0, hi1⟩]
  refine ⟨by rw [hcf]; rfl, ?_, hpt, ?_, ?_⟩
  · simp only [num_fields, hfields, hlen]
    omega
  · have hl : ((pattern st n v).state.fields st.heap.length).length
        = (List.replicate n.toNat v).length := by
      rw [hfields, hlen, List.length_replicate]
    apply fields_ext _ _ hl
    intro i hi0 hi1
    rw [List.length_replicate] at hi1
    rw [hpt i hi0 (by omega), fieldGet_replicate _ _ _ hi0 hi1]
  · intro a ha
    rw [hcf]
    show State.fields (State.write_barrier _ _ _) _ = _
    rw [State.fields_write_barrier, State.fields_setFields_ne _ _ _ _ (by rw [haddr]; omega)]
    exact State.fields_new_fields_old st _ _ a ha

end Tuple

/-- An instance of `pattern_spec`: three fields holding 7 at the fresh address 3. -/
theorem pattern_spec_witness :
    (Tuple.pattern sampleState 3 (Object.fixnum 7)).value = Except.ok 3 ∧
      (Tuple.pattern sampleState 3 (Object.fixnum 7)).state.fields 3
        = [Object.fixnum 7, Object.fixnum 7, Object.fixnum 7] :=
  have h := Tuple.pattern_spec sampleState 3 (Object.fixnum 7) (by decide)
  ⟨h.1, h.2.2.2.1⟩

/-! ## The constructors `Tuple::create`, `Tuple::allocate` and `Tuple::pattern` -/

theorem State.fields_setKlass (st : State) (self : Nat) (k : Object) (a : Nat) :
    (st.setKlass self k).fields a = st.fields a := by
  simp only [State.fields, State.tuple, State.setKlass, List.getD_eq_getElem?_getD,
    List.getElem?_set]
  by_cases h : self = a
  · subst h
    by_cases hv : self < st.heap.length
    · simp [hv]
    · have hnone : st.heap[self]? = none := by rw [List.getElem?_eq_none_iff]; omega
      simp [hv, hnone]
  · simp [h]

namespace Tuple

theorem create_ok (st : State) (n : Int) (hn : 0 ≤ n) :
    (create st n).value = Except.ok st.heap.length ∧
    (create st n).state.fields st.heap.length = List.replicate n.toNat Object.cNil ∧
    (∀ a, a < st.heap.length → (create st n).state.fields a = st.fields a) ∧
    (create st n).state.barriers = st.barriers := by
  have c1 : ¬ n < 0 := by omega
  have hcf : create st n
      = ⟨Except.ok (st.new_fields st.tuple_class n).1,
          init_fields (st.new_fields st.tuple_class n).2 (st.new_fields st.tuple_class n).1⟩ := by
    simp only [create, if_neg c1]
  have hnf := State.fields_new_fields_new st st.tuple_class n
  have haddr : (st.new_fields st.tuple_class n).1 = st.heap.length := rfl
  rw [hcf]
  refine ⟨rfl, ?_, ?_, rfl⟩
  · show State.fields (init_fields _ _) _ = _
    unfold init_fields
    rw [← haddr, State.fields_setFields_same_length _ _ _ (by simp), hnf]
    simp
  · intro a ha
    show State.fields (init_fields _ _) _ = _
    unfold init_fields
    rw [State.fields_setFields_ne _ _ _ _ (by rw [haddr]; omega)]
    exact State.fields_new_fields_old st _ _ a ha

/-- C11, as the code has it: `create`, `allocate` and `pattern` raise
`ArgumentError` exactly when the requested length is negative. For a length
`n ≥ 0`, `create` and `pattern` return a tuple of exactly `n` fields; `allocate`
does so when `self` is a Class, and raises `TypeError` from the cast
`as<Class>(self)` when it is not. -/
theorem constructors_length (kind_of_Class : Object → Bool) (st : State) (self : Object)
    (n : Int) (v : Object) :
    ((create st n).isArgumentError ↔ n < 0) ∧
    ((allocate kind_of_Class st self n).isArgumentError ↔ n < 0) ∧
    ((pattern st n v).isArgumentError ↔ n < 0) ∧
    (0 ≤ n → (create st n).value = Except.ok st.heap.length ∧
      num_fields (create st n).state st.heap.length = n) ∧
    (0 ≤ n → kind_of_Class self = true →
      (allocate kind_of_Class st self n).value = Except.ok st.heap.length ∧
      num_fields (allocate kind_of_Class st self n).state st.heap.length = n) ∧
    (0 ≤ n → kind_of_Class self = false →
      (allocate kind_of_Class st self n).value = Except.error (Error.type_error "Class")) ∧
    (0 ≤ n → (pattern st n v).value = Except.ok st.heap.length ∧
      num_fields (pattern st n v).state st.heap.length = n) := by
  by_cases hn : n < 0
  · have h1 : create st n = ⟨Except.error (Error.argument_error "negative tuple size"), st⟩ := by
      simp only [create, if_pos hn]
    have h2 : allocate kind_of_Class st self n
        = ⟨Except.error (Error.argument_error "negative tuple size"), st⟩ := by
      simp only [allocate, if_pos hn]
    have h3 : pattern st n v
        = ⟨Except.error (Error.argument_error "negative tuple size"), st⟩ := by
      simp only [pattern, if_pos hn]
    rw [h1, h2, h3]
    refine ⟨⟨fun _ => hn, fun _ => ⟨_, rfl⟩⟩, ⟨fun _ => hn, fun _ => ⟨_, rfl⟩⟩,
      ⟨fun _ => hn, fun _ => ⟨_, rfl⟩⟩, ?_, ?_, ?_, ?_⟩ <;> intro h <;> omega
  · have h0 : 0 ≤ n := by omega
    have hc := create_ok st n h0
    have hp := pattern_spec st n v h0
    have hcn : num_fields (create st n).state st.heap.length = n := by
      simp only [num_fields, hc.2.1, List.length_replicate]
      omega
    have ha : allocate kind_of_Class st self n
        = if kind_of_Class self then
            ⟨Except.ok st.heap.length, (create st n).state.setKlass st.heap.length self⟩
          else ⟨Except.error (Error.type_error "Class"), (create st n).state⟩ := by
      simp only [allocate, if_neg hn]
      rw [hc.1]
    have hpv : ¬ (pattern st n v).isArgumentError := by
      rintro ⟨m, h⟩
      rw [hp.1] at h
      cases h
    have hcv2 : ¬ (create st n).isArgumentError := by
      rintro ⟨m, h⟩
      rw [hc.1] at h
      cases h
    have hav : ¬ (allocate kind_of_Class st self n).isArgumentError := by
      rintro ⟨m, h⟩
      rw [ha] at h
      split_ifs at h
      cases h
    refine ⟨⟨fun h => absurd h hcv2, fun h => absurd h hn⟩,
      ⟨fun h => absurd h hav, fun h => absurd h hn⟩,
      ⟨fun h => absurd h hpv, fun h => absurd h hn⟩,
      fun _ => ⟨hc.1, hcn⟩, fun _ hk => ?_, fun _ hk => ?_, fun _ => ⟨hp.1, hp.2.1⟩⟩
    · rw [ha, if_pos hk]
      refine ⟨rfl, ?_⟩
      show num_fields (State.setKlass _ _ _) _ = _
      simp only [num_fields, State.fields_setKlass]
      exact hcn
    · rw [ha, hk]
      rfl

end Tuple

/-- The claim C11 as written fails on the code: with a `self` that is not a Class
(the integer 0) and the non-negative length 3, `allocate` does not return a tuple;
the cast `as<Class>(self)` raises `TypeError`. -/
theorem allocate_non_class_self_raises :
    (0 : Int) ≤ 3 ∧
      (Tuple.allocate sampleKind sampleState (Object.fixnum 0) 3).value
        = Except.error (Error.type_error "Class") ∧
      ¬ ∃ a, (Tuple.allocate sampleKind sampleState (Object.fixnum 0) 3).value = Except.ok a := by
  have h : (Tuple.allocate sampleKind sampleState (Object.fixnum 0) 3).value
      = Except.error (Error.type_error "Class") := by rfl
  refine ⟨by decide, h, ?_⟩
  rintro ⟨a, ha⟩
  rw [h] at ha
  cases ha

/-- An instance of `constructors_length`: with the class object of `sampleState` as
`self`, `allocate` returns a tuple of three fields at the fresh address 3. -/
theorem constructors_length_witness :
    (Tuple.allocate sampleKind sampleState (Object.ref 99) 3).value = Except.ok 3 ∧
      Tuple.num_fields (Tuple.allocate sampleKind sampleState (Object.ref 99) 3).state 3 = 3 :=
  (Tuple.constructors_length sampleKind sampleState (Object.ref 99) 3 Object.cNil).2.2.2.2.1
    (by decide) (by decide)

/-! ## `Tuple::delete_inplace_prim`: what is left of the deleted value -/

theorem fieldGet_mem_middle (A M S : List Object) (i : Int) (h0 : (A.length : Int) ≤ i)
    (h1 : i < A.length + M.length) : fieldGet (A ++ M ++ S) i ∈ M := by
  have hi : 0 ≤ i := by omega
  have hk : i.toNat - A.length < M.length := by omega
  have hget : (A ++ M ++ S)[i.toNat]? = some (M.get ⟨i.toNat - A.length, hk⟩) := by
    rw [List.append_assoc, List.getElem?_append_right (by omega),
      List.getElem?_append_left hk]
    simp
  simp only [fieldGet, hi, if_true, List.getD_eq_getElem?_getD, hget, Option.getD_some]
  exact List.get_mem M _ _

namespace Tuple

/-- The fields that `delete_inplace_prim` leaves for a range inside the array. -/
theorem delete_inplace_prim_fields (st : State) (self : Nat) (lend len : Int) (v : Object)
    (h0 : 0 ≤ lend) (h1 : 0 ≤ len) (h2 : lend + len ≤ num_fields st self) :
    (delete_inplace_prim st self lend len v).state.fields self
      = (st.fields self).take lend.toNat
          ++ ((((st.fields self).drop lend.toNat).take len.toNat).filter
                (fun x => decide (x ≠ v))
              ++ List.replicate ((((st.fields self).drop lend.toNat).take len.toNat).count v)
                  Object.cNil)
          ++ (st.fields self).drop (lend + len).toNat := by
  have hn : num_fields st self = ((st.fields self).length : Int) := rfl
  have hsplit := fields_split (st.fields self) lend.toNat len.toNat
  have htn : (lend + len).toNat = lend.toNat + len.toNat := by omega
  have hA : ((st.fields self).take lend.toNat).length = lend.toNat := by
    rw [List.length_take]; omega
  have hR : (((st.fields self).drop lend.toNat).take len.toNat).length = len.toNat := by
    rw [List.length_take, List.length_drop]; omega
  have hcnt := count_add_length_filter v (((st.fields self).drop lend.toNat).take len.toNat)
  have hscan := delete_inplace.scan_spec v (lend + len) lend (st.fields self) _ _ _ hsplit
    (by rw [hA]; omega) (by rw [hR]; omega)
  by_cases hc : num_fields st self = 0 ∨ len = 0
  · have hcf : delete_inplace_prim st self lend len v = ⟨Except.ok 0, st⟩ := by
      simp only [delete_inplace_prim, if_pos hc]
    have hRnil : ((st.fields self).drop lend.toNat).take len.toNat = [] := by
      apply List.eq_nil_of_length_eq_zero
      rw [hR]; omega
    rw [hcf]
    show st.fields self = _
    rw [hRnil]
    have hz : len.toNat = 0 := by omega
    rw [htn, hz]
    simp
  · have c2 : ¬ (lend < 0 ∨ lend ≥ num_fields st self) := by omega
    have c3 : ¬ (lend + len < 0 ∨ lend + len > num_fields st self) := by omega
    have hcf : delete_inplace_prim st self lend len v
        = ⟨Except.ok (delete_inplace (st.fields self) lend len v).1,
            st.setFields self (delete_inplace (st.fields self) lend len v).2⟩ := by
      simp only [delete_inplace_prim, if_neg hc, if_neg c2, if_neg c3]
    have hdel : (delete_inplace (st.fields self) lend len v).2
        = (st.fields self).take lend.toNat
          ++ ((((st.fields self).drop lend.toNat).take len.toNat).filter
                (fun x => decide (x ≠ v))
              ++ List.replicate ((((st.fields self).drop lend.toNat).take len.toNat).count v)
                  Object.cNil)
          ++ (st.fields self).drop (lend + len).toNat := by
      unfold delete_inplace
      simp only []
      rw [hscan, htn]
      simp only [List.append_assoc]
    rw [hcf]
    show State.fields (st.setFields self _) self = _
    rw [hdel]
    apply State.fields_setFields_same_length
    simp only [List.length_append, List.length_replicate, hA, List.length_drop, htn]
    omega

/-- C16, as the code has it: for a value `v` other than `nil` and a non-empty range
inside the array, no slot of the range holds `v` after `delete_inplace_prim`. -/
theorem delete_inplace_prim_removes_non_nil (st : State) (self : Nat) (lend len : Int)
    (v : Object) (hv : v ≠ Object.cNil) (h0 : 0 ≤ lend) (h1 : 0 < len)
    (h2 : lend + len ≤ num_fields st self) :
    (∃ c, (delete_inplace_prim st self lend len v).value = Except.ok c) ∧
    ∀ i : Int, lend ≤ i → i < lend + len →
      fieldGet ((delete_inplace_prim st self lend len v).state.fields self) i ≠ v := by
  have hn : num_fields st self = ((st.fields self).length : Int) := rfl
  refine ⟨?_, fun i hi0 hi1 => ?_⟩
  · have hc : ¬ (num_fields st self = 0 ∨ len = 0) := by omega
    have c2 : ¬ (lend < 0 ∨ lend ≥ num_fields st self) := by omega
    have c3 : ¬ (lend + len < 0 ∨ lend + len > num_fields st self) := by omega
    refine ⟨(delete_inplace (st.fields self) lend len v).1, ?_⟩
    simp only [delete_inplace_prim, if_neg hc, if_neg c2, if_neg c3]
  · rw [delete_inplace_prim_fields st self lend len v h0 (by omega) h2]
    have hA : ((st.fields self).take lend.toNat).length = lend.toNat := by
      rw [List.length_take]; omega
    have hR : (((st.fields self).drop lend.toNat).take len.toNat).length = len.toNat := by
      rw [List.length_take, List.length_drop]; omega
    have hcnt := count_add_length_filter v (((st.fields self).drop lend.toNat).take len.toNat)
    have hmem := fieldGet_mem_middle ((st.fields self).take lend.toNat)
      ((((st.fields self).drop lend.toNat).take len.toNat).filter (fun x => decide (x ≠ v))
        ++ List.replicate ((((st.fields self).drop lend.toNat).take len.toNat).count v)
            Object.cNil)
      ((st.fields self).drop (lend + len).toNat) i (by rw [hA]; omega)
      (by simp only [List.length_append, List.length_replicate, hA]; omega)
    rcases List.mem_append.mp hmem with hm | hm
    · have := (List.mem_filter.mp hm).2
      simpa using this
    · rw [(List.mem_replicate.mp hm).2]
      exact Ne.symm hv

end Tuple

/-- The claim C16 as written fails on the code: deleting `nil` from the whole of
`[nil, 1]` returns and leaves `[1, nil]`, whose slot 1, inside the range, holds
`nil`. -/
theorem delete_inplace_prim_nil_stays :
    (Tuple.delete_inplace_prim nilState 0 0 2 Object.cNil).value = Except.ok 1 ∧
    (Tuple.delete_inplace_prim nilState 0 0 2 Object.cNil).state.fields 0
      = [Object.fixnum 1, Object.cNil] ∧
    fieldGet ((Tuple.delete_inplace_prim nilState 0 0 2 Object.cNil).state.fields 0) 1
      = Object.cNil := by
  have hf : (Tuple.delete_inplace_prim nilState 0 0 2 Object.cNil).state.fields 0
      = [Object.fixnum 1, Object.cNil] :=
    Tuple.delete_inplace_prim_fields nilState 0 0 2 Object.cNil (by decide) (by decide)
      (by decide)
  refine ⟨?_, hf, by rw [hf]; rfl⟩
  simp [Tuple.delete_inplace_prim, Tuple.delete_inplace, Tuple.delete_inplace.scan,
    Tuple.delete_inplace.compact, Tuple.num_fields, nilState, State.fields, State.tuple,
    fieldGet, fieldSet]

/-- An instance of `delete_inplace_prim_removes_non_nil`: after deleting 1 from the
whole of `[1,2,1,3,1]`, slot 0 does not hold 1. -/
theorem delete_inplace_prim_removes_non_nil_witness :
    fieldGet ((Tuple.delete_inplace_prim sampleState 1 0 5 (Object.fixnum 1)).state.fields 1) 0
      ≠ Object.fixnum 1 :=
  (Tuple.delete_inplace_prim_removes_non_nil sampleState 1 0 5 (Object.fixnum 1) (by decide)
    (by decide) (by decide) (by decide)).2 0 (by decide) (by decide)

/-! ## The number of fields -/

theorem State.length_fields_setFields (st : State) (self : Nat) (g : List Object)
    (h : g.length = (st.fields self).length) (a : Nat) :
    ((st.setFields self g).fields a).length = (st.fields a).length := by
  by_cases ha : a = self
  · subst ha
    rw [State.fields_setFields_same_length st a g h, h]
  · rw [State.fields_setFields_ne st self a g ha]

namespace Tuple

theorem copy_from.length_right_shift (src_start : Int) :
    ∀ (dest_idx src_idx : Int) (f : List Object),
      (copy_from.right_shift src_start dest_idx src_idx f).length = f.length := by
  intro dest_idx src_idx f
  induction dest_idx, src_idx, f using copy_from.right_shift.induct src_start with
  | case1 dest_idx src_idx f hge ih =>
    rw [copy_from.right_shift, if_pos hge, ih, length_fieldSet]
  | case2 dest_idx src_idx f hge =>
    rw [copy_from.right_shift, if_neg hge]

theorem copy_from.length_left_shift (src_end : Int) :
    ∀ (dest_idx src_idx : Int) (f : List Object),
      (copy_from.left_shift src_end dest_idx src_idx f).length = f.length := by
  intro dest_idx src_idx f
  induction dest_idx, src_idx, f using copy_from.left_shift.induct src_end with
  | case1 dest_idx src_idx f hlt ih =>
    rw [copy_from.left_shift, if_pos hlt, ih, length_fieldSet]
  | case2 dest_idx src_idx f hlt =>
    rw [copy_from.left_shift, if_neg hlt]

theorem copy_from.length_copy_loop (self other : Nat) (src_end : Int) :
    ∀ (src dst : Int) (st : State) (a : Nat),
      ((copy_from.copy_loop self other src_end src dst st).fields a).length
        = (st.fields a).length := by
  intro src dst st
  induction src, dst, st using copy_from.copy_loop.induct self other src_end with
  | case1 src dst st hlt obj st1 ih =>
    intro a
    rw [copy_from.copy_loop, if_pos hlt]
    simp only []
    rw [ih a, State.fields_write_barrier]
    exact State.length_fields_setFields st self _ (length_fieldSet _ _ _) a
  | case2 src dst st hlt =>
    intro a
    rw [copy_from.copy_loop, if_neg hlt]

theorem delete_inplace.length_cleanup (rend : Int) :
    ∀ (i : Int) (f : List Object), (delete_inplace.cleanup rend i f).length = f.length := by
  intro i f
  induction i, f using delete_inplace.cleanup.induct rend with
  | case1 i f hlt ih =>
    rw [delete_inplace.cleanup, if_pos hlt, ih, length_fieldSet]
  | case2 i f hlt =>
    rw [delete_inplace.cleanup, if_neg hlt]

theorem delete_inplace.length_compact (obj : Object) (rend : Int) :
    ∀ (i j : Int) (f : List Object),
      (delete_inplace.compact obj rend i j f).2.length = f.length := by
  intro i j f
  induction i, j, f using delete_inplace.compact.induct obj rend with
  | case1 i j f hlt val hval ih =>
    rw [delete_inplace.compact, if_pos hlt]
    simp only []
    rw [if_pos hval, ih, length_fieldSet]
  | case2 i j f hlt val hval ih =>
    rw [delete_inplace.compact, if_pos hlt]
    simp only []
    rw [if_neg hval, ih]
  | case3 i j f hlt =>
    rw [delete_inplace.compact, if_neg hlt]

theorem delete_inplace.length_scan (obj : Object) (rend : Int) :
    ∀ (i : Int) (f : List Object), (delete_inplace.scan obj rend i f).2.length = f.length := by
  intro i f
  induction i, f using delete_inplace.scan.induct obj rend with
  | case1 i f hlt heq =>
    rw [delete_inplace.scan, if_pos hlt, if_pos heq]
    simp only []
    rw [delete_inplace.length_cleanup, delete_inplace.length_compact]
  | case2 i f hlt hne ih =>
    rw [delete_inplace.scan, if_pos hlt, if_neg hne, ih]
  | case3 i f hlt =>
    rw [delete_inplace.scan, if_neg hlt]

theorem lshift_inplace.length_shift (size : Int) :
    ∀ (i j : Int) (f : List Object), (lshift_inplace.shift size i j f).2.length = f.length := by
  intro i j f
  induction i, j, f using lshift_inplace.shift.induct size with
  | case1 i j f hlt ih =>
    rw [lshift_inplace.shift, if_pos hlt, ih, length_fieldSet]
  | case2 i j f hlt =>
    rw [lshift_inplace.shift, if_neg hlt]

theorem lshift_inplace.length_clear (size : Int) :
    ∀ (i : Int) (f : List Object), (lshift_inplace.clear size i f).length = f.length := by
  intro i f
  induction i, f using lshift_inplace.clear.induct size with
  | case1 i f hlt ih =>
    rw [lshift_inplace.clear, if_pos hlt, ih, length_fieldSet]
  | case2 i f hlt =>
    rw [lshift_inplace.clear, if_neg hlt]

theorem reverse.length_swap_loop :
    ∀ (pos1 pos2 : Int) (f : List Object), (reverse.swap_loop pos1 pos2 f).length = f.length := by
  intro pos1 pos2 f
  induction pos1, pos2, f using reverse.swap_loop.induct with
  | case1 pos1 pos2 f hlt tmp f1 f2 ih =>
    rw [reverse.swap_loop, if_pos hlt]
    simp only []
    rw [ih]
    simp only [f2, f1, length_fieldSet]
  | case2 pos1 pos2 f hlt =>
    rw [reverse.swap_loop, if_neg hlt]

/-- C17: the number of fields is an invariant of the mutating operations. For every
argument list, raising or not, `put_prim`, `copy_from`, `delete_inplace_prim`,
`lshift_inplace` and `reverse` leave the number of fields of the receiver, and of
every other tuple on the heap, as it was before the call. -/
theorem num_fields_invariant (st : State) (self other : Nat) (i j k : Int) (v : Object)
    (a : Nat) :
    num_fields (put_prim st self i v).state a = num_fields st a ∧
    num_fields (copy_from st self other i j k).state a = num_fields st a ∧
    num_fields (delete_inplace_prim st self i j v).state a = num_fields st a ∧
    num_fields (lshift_inplace st self i).state a = num_fields st a ∧
    num_fields (reverse st self i j).state a = num_fields st a := by
  have key : ∀ (g : List Object), g.length = (st.fields self).length →
      num_fields (st.setFields self g) a = num_fields st a := by
    intro g hg
    simp only [num_fields, State.length_fields_setFields st self g hg a]
  refine ⟨?_, ?_, ?_, ?_, ?_⟩
  · unfold put_prim
    split_ifs
    · rfl
    · show num_fields (State.write_barrier _ _ _) a = _
      simp only [num_fields, State.fields_write_barrier]
      exact key _ (length_fieldSet _ _ _)
  · unfold copy_from
    simp only []
    split_ifs with c1 c2 c3 c4 c5 c6 c7 c8
    · rfl
    · rfl
    · rfl
    · rfl
    · rfl
    · rfl
    · subst c6
      exact key _ (copy_from.length_right_shift _ _ _ _)
    · subst c6
      exact key _ (copy_from.length_left_shift _ _ _ _)
    · simp only [num_fields, copy_from.length_copy_loop]
  · unfold delete_inplace_prim
    simp only []
    split_ifs <;> first
      | rfl
      | exact key _ (by unfold delete_inplace; exact delete_inplace.length_scan _ _ _ _)
  · unfold lshift_inplace
    simp only []
    split_ifs <;> first
      | rfl
      | exact key _ (by rw [lshift_inplace.length_clear, lshift_inplace.length_shift])
  · unfold reverse
    simp only []
    split_ifs <;> first
      | rfl
      | exact key _ (reverse.length_swap_loop _ _ _)

/-! ## Write barriers -/

theorem copy_from.barriers_copy_loop (self other : Nat) (src_end : Int) (hne : other ≠ self) :
    ∀ (src dst : Int) (st : State),
      (copy_from.copy_loop self other src_end src dst st).barriers
        = st.barriers ++ (List.range (src_end - src).toNat).map
            (fun (k : Nat) => (self, fieldGet (st.fields other) (src + (k : Int)))) := by
  intro src dst st
  induction src, dst, st using copy_from.copy_loop.induct self other src_end with
  | case1 src dst st hlt obj st1 ih =>
    rw [copy_from.copy_loop, if_pos hlt]
    simp only []
    rw [ih]
    have hoth : (st1.write_barrier self obj).fields other = st.fields other := by
      rw [State.fields_write_barrier]
      exact State.fields_setFields_ne _ _ _ _ hne
    have hb : (st1.write_barrier self obj).barriers = st.barriers ++ [(self, obj)] := rfl
    have hk : (src_end - src).toNat = (src_end - (src + 1)).toNat + 1 := by omega
    rw [hoth, hb, hk, List.range_succ_eq_map, List.map_cons, List.map_map,
      List.append_assoc]
    congr 1
    simp only [List.singleton_append, List.cons.injEq]
    refine ⟨by simp [obj], ?_⟩
    apply List.map_congr_left
    intro k _
    simp only [Function.comp, Nat.succ_eq_add_one, Prod.mk.injEq, true_and]
    congr 1
    push_cast
    omega
  | case2 src dst st hlt =>
    rw [copy_from.copy_loop, if_neg hlt]
    have : (src_end - src).toNat = 0 := by omega
    rw [this]
    simp

/-- C18: the write barriers of `put_prim`, `copy_from` between two different arrays
and `pattern`. A `put_prim` inside the bounds returns and adds the one barrier
`(array, v)` to the log, one outside the bounds raises and adds none; an in-bounds
`copy_from` adds, in index order, one barrier `(dst, x)` for each copied element
`x` and nothing else; `pattern(n, v)` adds the one barrier `(new array, v)`. -/
theorem write_barrier_log (st : State) (self other : Nat) (i : Int) (v : Object)
    (src_start len dst_start n : Int) :
    ((0 ≤ i ∧ i < num_fields st self) →
      (put_prim st self i v).value = Except.ok v ∧
      (put_prim st self i v).state.barriers = st.barriers ++ [(self, v)]) ∧
    (¬ (0 ≤ i ∧ i < num_fields st self) →
      (put_prim st self i v).isBoundsError ∧
      (put_prim st self i v).state.barriers = st.barriers) ∧
    (other ≠ self → 0 ≤ src_start → 0 ≤ dst_start → 0 ≤ len →
      src_start + len ≤ num_fields st other → dst_start + len ≤ num_fields st self →
      (copy_from st self other src_start len dst_start).value = Except.ok self ∧
      (copy_from st self other src_start len dst_start).state.barriers
        = st.barriers ++ (List.range len.toNat).map
            (fun (k : Nat) => (self, fieldGet (st.fields other) (src_start + (k : Int))))) ∧
    (0 ≤ n →
      (pattern st n v).value = Except.ok st.heap.length ∧
      (pattern st n v).state.barriers = st.barriers ++ [(st.heap.length, v)]) := by
  refine ⟨fun hi => ?_, fun hi => ?_, fun hne hs hd hl hsb hdb => ?_, fun hn => ?_⟩
  · have hc : ¬ (i < 0 ∨ num_fields st self ≤ i) := by omega
    have hput : put_prim st self i v
        = ⟨Except.ok v,
            (st.setFields self (fieldSet (st.fields self) i v)).write_barrier self v⟩ := by
      simp only [put_prim, if_neg hc]
    rw [hput]
    exact ⟨rfl, rfl⟩
  · have hc : i < 0 ∨ num_fields st self ≤ i := by omega
    have hput : put_prim st self i v = bounds_exceeded_error st self "Tuple::put_prim" i := by
      simp only [put_prim, if_pos hc]
    rw [hput]
    exact ⟨bounds_exceeded_error_isBoundsError _ _ _ _, rfl⟩
  · have c1 : ¬ (src_start < 0 ∨ src_start > num_fields st other) := by omega
    have c2 : ¬ (dst_start < 0 ∨ dst_start > num_fields st self) := by omega
    have c3 : ¬ (len < 0) := by omega
    have c4 : ¬ (src_start + len > num_fields st other) := by omega
    have c5 : ¬ (len > num_fields st self - dst_start) := by omega
    have hcf : copy_from st self other src_start len dst_start
        = ⟨Except.ok self,
            copy_from.copy_loop self other (src_start + len) src_start dst_start st⟩ := by
      simp only [copy_from, if_neg c1, if_neg c2, if_neg c3, if_neg c4, if_neg c5, if_neg hne]
    rw [hcf]
    refine ⟨rfl, ?_⟩
    show (copy_from.copy_loop self other (src_start + len) src_start dst_start st).barriers = _
    rw [copy_from.barriers_copy_loop self other _ hne]
    have : (src_start + len - src_start).toNat = len.toNat := by
      congr 1; omega
    rw [this]
  · have c1 : ¬ n < 0 := by omega
    have hcf : pattern st n v
        = ⟨Except.ok (st.new_fields st.tuple_class n).1,
            ((st.new_fields st.tuple_class n).2.setFields (st.new_fields st.tuple_class n).1
              (pattern.fill n 0 v
                ((st.new_fields st.tuple_class n).2.fields
                  (st.new_fields st.tuple_class n).1))).write_barrier
              (st.new_fields st.tuple_class n).1 v⟩ := by
      simp only [pattern, if_neg c1]
    rw [hcf]
    exact ⟨rfl, rfl⟩

end Tuple

/-- An instance of `write_barrier_log`: copying three elements of `[1,2,1,3,1]` from
index 1 into `[1,2,3,4,5]` logs the barriers for 2, 1 and 3, in that order. -/
theorem write_barrier_log_witness :
    (Tuple.copy_from sampleState 0 1 1 3 2).state.barriers
      = [(0, Object.fixnum 2), (0, Object.fixnum 1), (0, Object.fixnum 3)] ∧
    (Tuple.put_prim sampleState 0 1 (Object.fixnum 9)).state.barriers
      = [(0, Object.fixnum 9)] ∧
    (Tuple.put_prim sampleState 0 5 (Object.fixnum 9)).state.barriers = [] ∧
    (Tuple.pattern sampleState 2 (Object.fixnum 9)).state.barriers = [(3, Object.fixnum 9)] :=
  have h := Tuple.write_barrier_log sampleState 0 1 1 (Object.fixnum 9) 1 3 2 2
  have h5 := Tuple.write_barrier_log sampleState 0 1 5 (Object.fixnum 9) 1 3 2 2
  ⟨(h.2.2.1 (by decide) (by decide) (by decide) (by decide) (by decide) (by decide)).2,
    (h.1 (by decide)).2, (h5.2.1 (by decide)).2, (h.2.2.2 (by decide)).2⟩

namespace Tuple

/-! ## `Tuple::Info::mark` -/

theorem Info.mark.loop_spec :
    ∀ (i : Int) (f : List Object) (mark : ObjectMark) (A R : List Object),
      f = A ++ R → i = A.length →
      Info.mark.loop i f mark
        = (A ++ R.map (fun x => (mark.call x).getD x),
            { mark with called := mark.called ++ R }) := by
  intro i f mark
  induction i, f, mark using Info.mark.loop.induct with
  | case1 i f mark hlt x mark1 tmp hcall ih =>
    intro A R hf hi
    rw [Info.mark.loop, if_pos hlt]
    simp only []
    rw [hcall]
    simp only []
    cases R with
    | nil => rw [hf] at hlt; simp at hlt; omega
    | cons r R =>
      have hx : x = r := by
        show fieldGet f i = r
        rw [hf]
        exact fieldGet_append_cons A R r i hi
      have hset : ObjectMark.set f i tmp = (A ++ [tmp]) ++ R := by
        unfold ObjectMark.set
        rw [hf]
        simp only [List.append_assoc, List.cons_append, List.nil_append]
        exact fieldSet_append_cons A R r tmp i hi
      rw [ih (A ++ [tmp]) R hset (by simp; omega)]
      rw [hx] at hcall
      simp [mark1, hx, hcall]
  | case2 i f mark hlt x mark1 hcall ih =>
    intro A R hf hi
    rw [Info.mark.loop, if_pos hlt]
    simp only []
    rw [hcall]
    simp only []
    cases R with
    | nil => rw [hf] at hlt; simp at hlt; omega
    | cons r R =>
      have hx : x = r := by
        show fieldGet f i = r
        rw [hf]
        exact fieldGet_append_cons A R r i hi
      have hf' : f = (A ++ [r]) ++ R := by rw [hf]; simp
      rw [ih (A ++ [r]) R hf' (by simp; omega)]
      rw [hx] at hcall
      simp [mark1, hx, hcall]
  | case3 i f mark hlt =>
    intro A R hf hi
    rw [Info.mark.loop, if_neg hlt]
    have : R = [] := by
      apply List.eq_nil_of_length_eq_zero
      rw [hf] at hlt
      simp at hlt
      omega
    subst this
    simp [hf]

theorem fieldGet_map (f : List Object) (g : Object → Object) (i : Int) (h0 : 0 ≤ i)
    (h1 : i < f.length) : fieldGet (f.map g) i = g (fieldGet f i) := by
  have : i.toNat < f.length := by omega
  simp [fieldGet, h0, List.getD_eq_getElem?_getD, List.getElem?_map, this]

/-- C19: `Tuple::Info::mark` invokes the mark callback exactly once on each element,
in index order (the log of calls grows by the original fields, in order), keeps
the number of fields, and leaves at every index `i` the relocated object when the
callback returned one for `old[i]`, and `old[i]` itself when it returned null. -/
theorem Info.mark_spec (st : State) (obj : Nat) (mark : ObjectMark) :
    (Info.mark st obj mark).2.called = mark.called ++ st.fields obj ∧
    (Info.mark st obj mark).2.call = mark.call ∧
    (Info.mark st obj mark).1.fields obj
      = (st.fields obj).map (fun x => (mark.call x).getD x) ∧
    (∀ i : Int, 0 ≤ i → i < num_fields st obj →
      (∀ y, mark.call (fieldGet (st.fields obj) i) = some y →
        fieldGet ((Info.mark st obj mark).1.fields obj) i = y) ∧
      (mark.call (fieldGet (st.fields obj) i) = none →
        fieldGet ((Info.mark st obj mark).1.fields obj) i = fieldGet (st.fields obj) i)) ∧
    (∀ a, a ≠ obj → (Info.mark st obj mark).1.fields a = st.fields a) := by
  have hl := Info.mark.loop_spec 0 (st.fields obj) mark [] (st.fields obj) rfl rfl
  have hm : Info.mark st obj mark
      = (st.setFields obj ((st.fields obj).map (fun x => (mark.call x).getD x)),
          { mark with called := mark.called ++ st.fields obj }) := by
    unfold Info.mark
    simp only []
    rw [hl]
    simp
  have hf : (Info.mark st obj mark).1.fields obj
      = (st.fields obj).map (fun x => (mark.call x).getD x) := by
    rw [hm]
    exact State.fields_setFields_same_length st obj _ (by simp)
  refine ⟨by rw [hm], by rw [hm], hf, fun i hi0 hi1 => ?_, fun a ha => ?_⟩
  · rw [hf, fieldGet_map _ _ i hi0 hi1]
    exact ⟨fun y hy => by rw [hy]; rfl, fun hn => by rw [hn]; rfl⟩
  · rw [hm]
    exact State.fields_setFields_ne st obj a _ ha

end Tuple

/-- An instance of `Info.mark_spec`: a callback that relocates the integer 1 to the
integer 10 and answers null for everything else, on `[1,2,1,3,1]`. -/
theorem mark_spec_witness :
    fieldGet ((Tuple.Info.mark sampleState 1
        ⟨fun x => if x = Object.fixnum 1 then some (Object.fixnum 10) else none, []⟩).1.fields 1) 2
      = Object.fixnum 10 ∧
    fieldGet ((Tuple.Info.mark sampleState 1
        ⟨fun x => if x = Object.fixnum 1 then some (Object.fixnum 10) else none, []⟩).1.fields 1) 3
      = fieldGet (sampleState.fields 1) 3 :=
  have h := Tuple.Info.mark_spec sampleState 1
    ⟨fun x => if x = Object.fixnum 1 then some (Object.fixnum 10) else none, []⟩
  ⟨(h.2.2.2.1 2 (by decide) (by decide)).1 (Object.fixnum 10) (by decide),
    (h.2.2.2.1 3 (by decide) (by decide)).2 (by decide)⟩

/-! # Verification of the inline cache -/

/-! ## The cache heap -/

theorem VM.cache_setCache_self (st : VM) (c : Nat) (v : InlineCache)
    (h : c < st.caches.length) : (st.setCache c v).cache c = v := by
  simp [VM.cache, VM.setCache, List.getD_eq_getElem?_getD, h]

theorem VM.cache_setCache_ne (st : VM) (c d : Nat) (v : InlineCache) (h : d ≠ c) :
    (st.setCache c v).cache d = st.cache d := by
  simp [VM.cache, VM.setCache, List.getD_eq_getElem?_getD, List.getElem?_set, Ne.symm h]

theorem VM.valid_of_slots_ne_nil (st : VM) (c : Nat) (h : (st.cache c).cache_ ≠ []) :
    c < st.caches.length := by
  by_contra hc
  have : st.caches[c]? = none := by rw [List.getElem?_eq_none_iff]; omega
  simp [VM.cache, List.getD_eq_getElem?_getD, this] at h
  exact h rfl

namespace InlineCache

theorem get_inline_cache.scan_some (st : VM) (recv_class : Nat) :
    ∀ (slots : List InlineCacheHit) (i ic e : Nat),
      get_inline_cache.scan st recv_class i slots = some (ic, e) →
      i ≤ ic ∧ ic - i < slots.length ∧
      (slots.getD (ic - i) default).entry_ = some e ∧
      (st.entry e).receiver_class = recv_class := by
  intro slots
  induction slots with
  | nil => intro i ic e h; simp [get_inline_cache.scan] at h
  | cons s rest ih =>
    intro i ic e h
    unfold get_inline_cache.scan at h
    cases hs : s.entry_ with
    | none =>
      rw [hs] at h
      simp only at h
      obtain ⟨h1, h2, h3, h4⟩ := ih (i + 1) ic e h
      refine ⟨by omega, by simp; omega, ?_, h4⟩
      have : ic - i = (ic - (i + 1)) + 1 := by omega
      rw [this]
      simpa using h3
    | some e0 =>
      rw [hs] at h
      simp only at h
      by_cases hm : (st.entry e0).receiver_class = recv_class
      · rw [if_pos hm] at h
        simp only [Option.some.injEq, Prod.mk.injEq] at h
        obtain ⟨h1, h2⟩ := h
        subst h1; subst h2
        refine ⟨le_refl _, by simp, ?_, hm⟩
        simp [hs]
      · rw [if_neg hm] at h
        obtain ⟨h1, h2, h3, h4⟩ := ih (i + 1) ic e h
        refine ⟨by omega, by simp; omega, ?_, h4⟩
        have : ic - i = (ic - (i + 1)) + 1 := by omega
        rw [this]
        simpa using h3

theorem get_inline_cache_some (st : VM) (cache recv_class ic e : Nat)
    (h : get_inline_cache st cache recv_class = some (ic, e)) :
    ic < (st.cache cache).cache_.length ∧
    ((st.cache cache).cache_.getD ic default).entry_ = some e ∧
    (st.entry e).receiver_class = recv_class ∧
    cache < st.caches.length := by
  obtain ⟨_, h2, h3, h4⟩ := get_inline_cache.scan_some st recv_class _ 0 ic e h
  simp only [Nat.sub_zero] at h2 h3
  refine ⟨h2, h3, h4, VM.valid_of_slots_ne_nil st cache ?_⟩
  intro hnil
  rw [hnil] at h2
  simp at h2

theorem hit_slots (st : VM) (cache ic : Nat) (hv : cache < st.caches.length)
    (hic : ic < (st.cache cache).cache_.length) :
    (((st.hit cache ic).cache cache).cache_.getD ic default).hits_
        = ((st.cache cache).cache_.getD ic default).hits_ + 1 ∧
    (((st.hit cache ic).cache cache).cache_.getD ic default).entry_
        = ((st.cache cache).cache_.getD ic default).entry_ ∧
    (∀ j, j ≠ ic → ((st.hit cache ic).cache cache).cache_.getD j default
        = (st.cache cache).cache_.getD j default) ∧
    ((st.hit cache ic).cache cache).cache_.length = (st.cache cache).cache_.length ∧
    (∀ d, d ≠ cache → (st.hit cache ic).cache d = st.cache d) ∧
    (st.hit cache ic).entries = st.entries ∧
    (st.hit cache ic).method_missing_reason = st.method_missing_reason := by
  have hc : (st.hit cache ic).cache cache
      = { st.cache cache with
          cache_ := (st.cache cache).cache_.set ic
            ((st.cache cache).cache_.getD ic default).hit } := by
    unfold VM.hit
    exact VM.cache_setCache_self st cache _ hv
  rw [hc]
  refine ⟨?_, ?_, ?_, ?_, ?_, rfl, rfl⟩
  · simp [List.getD_eq_getElem?_getD, hic, InlineCacheHit.hit]
  · simp [List.getD_eq_getElem?_getD, hic, InlineCacheHit.hit]
  · intro j hj
    simp [List.getD_eq_getElem?_getD, List.getElem?_set, Ne.symm hj]
  · simp
  · intro d hd
    unfold VM.hit
    exact VM.cache_setCache_ne st cache d _ hd

/-! ## `InlineCache::check_cache` and `InlineCache::check_cache_mm` -/

/-- C12: `check_cache`. When the lookup for the class of the receiver hits slot `ic`
with entry `e`, the call ends in `execute` of the method of `e` with the stored
module of `e` and the arguments as given, not in the fallback; in the state of
that call the hit counter of slot `ic` is one more than before, and every other
slot, every other cache and every entry is as before. When the lookup misses,
the call ends in the fallback of the call site with the arguments as given, in
the unchanged state. -/
theorem check_cache_spec (lookup_begin : Object → Nat) (st : VM) (call_site call_frame : Nat)
    (args : Arguments) :
    (∀ ic e, get_inline_cache st call_site (lookup_begin args.recv) = some (ic, e) →
      (check_cache lookup_begin st call_site call_frame args).1
        = Call.execute call_frame (st.entry e).method (st.entry e).stored_module args ∧
      (∀ f cs cf a,
        (check_cache lookup_begin st call_site call_frame args).1 ≠ Call.fallback f cs cf a) ∧
      ((st.cache call_site).cache_.getD ic default).entry_ = some e ∧
      (st.entry e).receiver_class = lookup_begin args.recv ∧
      ((((check_cache lookup_begin st call_site call_frame args).2.cache
          call_site).cache_.getD ic default).hits_
        = ((st.cache call_site).cache_.getD ic default).hits_ + 1) ∧
      (∀ j, j ≠ ic →
        ((check_cache lookup_begin st call_site call_frame args).2.cache
            call_site).cache_.getD j default
          = (st.cache call_site).cache_.getD j default) ∧
      (∀ d, d ≠ call_site →
        (check_cache lookup_begin st call_site call_frame args).2.cache d = st.cache d) ∧
      (check_cache lookup_begin st call_site call_frame args).2.entries = st.entries) ∧
    (get_inline_cache st call_site (lookup_begin args.recv) = none →
      check_cache lookup_begin st call_site call_frame args
        = (Call.fallback (st.cache call_site).fallback_ call_site call_frame args, st)) := by
  constructor
  · intro ic e h
    have hcc : check_cache lookup_begin st call_site call_frame args
        = (Call.execute call_frame (st.entry e).method (st.entry e).stored_module args,
            st.hit call_site ic) := by
      simp only [check_cache, h]
    obtain ⟨h1, h2, h3, h4⟩ := get_inline_cache_some st call_site _ ic e h
    obtain ⟨g1, _, g3, _, g5, g6, _⟩ := hit_slots st call_site ic h4 h1
    rw [hcc]
    exact ⟨rfl, fun f cs cf a hne => Call.noConfusion hne, h2, h3, g1, g3, g5, g6⟩
  · intro h
    simp only [check_cache, h]

/-- C20: `check_cache_mm`. On a hit whose entry has a missing-reason other than
`eNone`, the call ends in `execute` with the call-site name prepended to the
arguments, in a state where that reason is recorded; on a hit whose entry has the
reason `eNone`, the arguments are passed as given and the recorded reason is as
before; on a miss the call ends in the fallback with the arguments as given, in
the unchanged state. On a hit the hit counter of the slot grows by one. -/
theorem check_cache_mm_spec (lookup_begin : Object → Nat) (st : VM)
    (call_site call_frame : Nat) (args : Arguments) :
    (∀ ic e, get_inline_cache st call_site (lookup_begin args.recv) = some (ic, e) →
      (st.entry e).method_missing_ ≠ MethodMissingReason.eNone →
      (check_cache_mm lookup_begin st call_site call_frame args).1
        = Call.execute call_frame (st.entry e).method (st.entry e).stored_module
            { args with arguments := (st.cache call_site).name_ :: args.arguments } ∧
      (check_cache_mm lookup_begin st call_site call_frame args).2.method_missing_reason
        = (st.entry e).method_missing_ ∧
      ((((check_cache_mm lookup_begin st call_site call_frame args).2.cache
          call_site).cache_.getD ic default).hits_
        = ((st.cache call_site).cache_.getD ic default).hits_ + 1)) ∧
    (∀ ic e, get_inline_cache st call_site (lookup_begin args.recv) = some (ic, e) →
      (st.entry e).method_missing_ = MethodMissingReason.eNone →
      (check_cache_mm lookup_begin st call_site call_frame args).1
        = Call.execute call_frame (st.entry e).method (st.entry e).stored_module args ∧
      (check_cache_mm lookup_begin st call_site call_frame args).2.method_missing_reason
        = st.method_missing_reason ∧
      ((((check_cache_mm lookup_begin st call_site call_frame args).2.cache
          call_site).cache_.getD ic default).hits_
        = ((st.cache call_site).cache_.getD ic default).hits_ + 1)) ∧
    (get_inline_cache st call_site (lookup_begin args.recv) = none →
      check_cache_mm lookup_begin st call_site call_frame args
        = (Call.fallback (st.cache call_site).fallback_ call_site call_frame args, st)) := by
  refine ⟨fun ic e h hmm => ?_, fun ic e h hmm => ?_, fun h => ?_⟩
  · have hcc : check_cache_mm lookup_begin st call_site call_frame args
        = (Call.execute call_frame (st.entry e).method (st.entry e).stored_module
              (args.unshift (st.cache call_site).name_),
            (st.set_method_missing_reason (st.entry e).method_missing_).hit call_site ic) := by
      simp only [check_cache_mm, h, if_pos hmm]
      rfl
    obtain ⟨h1, h2, h3, h4⟩ := get_inline_cache_some st call_site _ ic e h
    obtain ⟨g1, _, _, _, _, _, g7⟩ :=
      hit_slots (st.set_method_missing_reason (st.entry e).method_missing_) call_site ic h4 h1
    rw [hcc]
    exact ⟨rfl, g7, g1⟩
  · have hmm' : ¬ (st.entry e).method_missing_ ≠ MethodMissingReason.eNone := not_not.mpr hmm
    have hcc : check_cache_mm lookup_begin st call_site call_frame args
        = (Call.execute call_frame (st.entry e).method (st.entry e).stored_module args,
            st.hit call_site ic) := by
      simp only [check_cache_mm, h, if_neg hmm']
    obtain ⟨h1, h2, h3, h4⟩ := get_inline_cache_some st call_site _ ic e h
    obtain ⟨g1, _, _, _, _, _, g7⟩ := hit_slots st call_site ic h4 h1
    rw [hcc]
    exact ⟨rfl, g7, g1⟩
  · simp only [check_cache_mm, h]

end InlineCache

/-- An instance of `check_cache_spec`: in `sampleVM2` a receiver of class 0 hits
slot 0, whose counter goes from 3 to 4, and a receiver of a class that is not
cached ends in the fallback. -/
theorem check_cache_spec_witness :
    (InlineCache.check_cache sampleLookup sampleVM2 0 9 ⟨Object.fixnum 0, [Object.fixnum 4]⟩).1
      = Call.execute 9 (Object.ref 61) (Object.ref 60) ⟨Object.fixnum 0, [Object.fixnum 4]⟩ ∧
    (((InlineCache.check_cache sampleLookup sampleVM2 0 9
        ⟨Object.fixnum 0, [Object.fixnum 4]⟩).2.cache 0).cache_.getD 0 default).hits_ = 3 + 1 ∧
    InlineCache.check_cache sampleLookup sampleVM2 0 9 ⟨Object.fixnum 5, []⟩
      = (Call.fallback 5 0 9 ⟨Object.fixnum 5, []⟩, sampleVM2) :=
  have h := (InlineCache.check_cache_spec sampleLookup sampleVM2 0 9
    ⟨Object.fixnum 0, [Object.fixnum 4]⟩).1 0 0 (by decide)
  ⟨h.1, h.2.2.2.2.1,
    (InlineCache.check_cache_spec sampleLookup sampleVM2 0 9 ⟨Object.fixnum 5, []⟩).2
      (by decide)⟩

/-- An instance of `check_cache_mm_spec`: in `sampleVM2` a receiver of class 1 hits
the method-missing entry, so the call-site name is prepended and the reason is
recorded; a receiver of class 0 hits a normal entry. -/
theorem check_cache_mm_spec_witness :
    (InlineCache.check_cache_mm sampleLookup sampleVM2 0 9
        ⟨Object.fixnum 1, [Object.fixnum 4]⟩).1
      = Call.execute 9 (Object.ref 71) (Object.ref 70)
          ⟨Object.fixnum 1, [Object.ref 50, Object.fixnum 4]⟩ ∧
    (InlineCache.check_cache_mm sampleLookup sampleVM2 0 9
        ⟨Object.fixnum 1, [Object.fixnum 4]⟩).2.method_missing_reason
      = MethodMissingReason.reason 2 ∧
    (InlineCache.check_cache_mm sampleLookup sampleVM2 0 9
        ⟨Object.fixnum 0, [Object.fixnum 4]⟩).1
      = Call.execute 9 (Object.ref 61) (Object.ref 60) ⟨Object.fixnum 0, [Object.fixnum 4]⟩ ∧
    InlineCache.check_cache_mm sampleLookup sampleVM2 0 9 ⟨Object.fixnum 5, []⟩
      = (Call.fallback 5 0 9 ⟨Object.fixnum 5, []⟩, sampleVM2) :=
  have h := (InlineCache.check_cache_mm_spec sampleLookup sampleVM2 0 9
    ⟨Object.fixnum 1, [Object.fixnum 4]⟩).1 1 1 (by decide) (by decide)
  have h0 := (InlineCache.check_cache_mm_spec sampleLookup sampleVM2 0 9
    ⟨Object.fixnum 0, [Object.fixnum 4]⟩).2.1 0 0 (by decide) (by decide)
  ⟨h.1, h.2.1, h0.1,
    (InlineCache.check_cache_mm_spec sampleLookup sampleVM2 0 9 ⟨Object.fixnum 5, []⟩).2.2
      (by decide)⟩

namespace InlineCache

/-! ## `InlineCache::create` and `InlineCache::inline_cache_updater` -/

/-- The state `InlineCache::create` leaves, for a cache of at least one slot. -/
theorem create_eq (n : Nat) (policy : List InlineCacheHit → Nat) (b : Bool) (st : VM)
    (mono : MonoInlineCache) :
    create (n + 1) policy b st mono
      = (st.caches.length,
          { classes := st.classes,
            entries := st.entries ++
              [{ receiver_ := mono.receiver_data,
                 receiver_class := mono.receiver_class,
                 stored_module := mono.stored_module,
                 method := mono.method,
                 method_missing_ := mono.method_missing }],
            caches := st.caches ++
              [{ name_ := mono.name,
                 executable := mono.executable,
                 ip_ := mono.ip,
                 executor_ := Executor.check_cache,
                 fallback_ := mono.fallback_,
                 updater_ := Updater.inline_cache_updater,
                 seen_classes_overflow_ := 0,
                 cache_ := { entry_ := some st.entries.length, hits_ := 0 }
                   :: List.replicate n { entry_ := none, hits_ := 0 } }],
            method_missing_reason := st.method_missing_reason }) := by
  simp [create, new_object_mature, clear, VM.setCache, VM.cache, InlineCacheEntry.create,
    set_cache, set_cache.install_empty, List.replicate_succ, List.getD_eq_getElem?_getD]

/-- C13: `InlineCache::create(m)` returns a cache at a fresh address that has the
call-site name and the fallback of `m`, an overflow count of 0, and exactly one
installed entry, in slot 0 with a hit count of 0; that entry is a new object whose
receiver class, class data, stored module, method and missing-reason are those of
`m`. A dispatch through the new cache for a receiver of that class is a hit on
that entry: it ends in `execute` of the method of `m`, not in the fallback. -/
theorem create_spec (cTrackedICHits : Nat) (policy : List InlineCacheHit → Nat) (b : Bool)
    (st : VM) (mono : MonoInlineCache) (hN : 0 < cTrackedICHits) :
    (create cTrackedICHits policy b st mono).1 = st.caches.length ∧
    ((create cTrackedICHits policy b st mono).2.cache st.caches.length).name_ = mono.name ∧
    ((create cTrackedICHits policy b st mono).2.cache st.caches.length).fallback_
      = mono.fallback_ ∧
    ((create cTrackedICHits policy b st mono).2.cache
      st.caches.length).seen_classes_overflow_ = 0 ∧
    ((create cTrackedICHits policy b st mono).2.cache st.caches.length).cache_
      = { entry_ := some st.entries.length, hits_ := 0 }
          :: List.replicate (cTrackedICHits - 1) { entry_ := none, hits_ := 0 } ∧
    (create cTrackedICHits policy b st mono).2.entry st.entries.length
      = { receiver_ := mono.receiver_data,
          receiver_class := mono.receiver_class,
          stored_module := mono.stored_module,
          method := mono.method,
          method_missing_ := mono.method_missing } ∧
    (∀ e, e < st.entries.length →
      (create cTrackedICHits policy b st mono).2.entry e = st.entry e) ∧
    (∀ (lookup_begin : Object → Nat) (call_frame : Nat) (args : Arguments),
      lookup_begin args.recv = mono.receiver_class →
      get_inline_cache (create cTrackedICHits policy b st mono).2 st.caches.length
          (lookup_begin args.recv) = some (0, st.entries.length) ∧
      (check_cache lookup_begin (create cTrackedICHits policy b st mono).2
          st.caches.length call_frame args).1
        = Call.execute call_frame mono.method mono.stored_module args) := by
  obtain ⟨n, rfl⟩ : ∃ n, cTrackedICHits = n + 1 := ⟨cTrackedICHits - 1, by omega⟩
  rw [create_eq]
  have hcache : ∀ (c : InlineCache) (es : List InlineCacheEntry),
      VM.cache { classes := st.classes, entries := es, caches := st.caches ++ [c],
                 method_missing_reason := st.method_missing_reason } st.caches.length = c := by
    intro c es
    simp [VM.cache, List.getD_eq_getElem?_getD]
  have hentry : ∀ (x : InlineCacheEntry) (cs : List InlineCache),
      VM.entry { classes := st.classes, entries := st.entries ++ [x], caches := cs,
                 method_missing_reason := st.method_missing_reason } st.entries.length = x := by
    intro x cs
    simp [VM.entry, List.getD_eq_getElem?_getD]
  simp only [hcache, hentry, Nat.add_sub_cancel, true_and]
  refine ⟨?_, fun lookup_begin call_frame args hrc => ?_⟩
  · intro e he
    simp [VM.entry, List.getD_eq_getElem?_getD, List.getElem?_append_left he]
  · have hg : get_inline_cache
        { classes := st.classes,
          entries := st.entries ++
            [{ receiver_ := mono.receiver_data,
               receiver_class := mono.receiver_class,
               stored_module := mono.stored_module,
               method := mono.method,
               method_missing_ := mono.method_missing }],
          caches := st.caches ++
            [{ name_ := mono.name,
               executable := mono.executable,
               ip_ := mono.ip,
               executor_ := Executor.check_cache,
               fallback_ := mono.fallback_,
               updater_ := Updater.inline_cache_updater,
               seen_classes_overflow_ := 0,
               cache_ := { entry_ := some st.entries.length, hits_ := 0 }
                 :: List.replicate n { entry_ := none, hits_ := 0 } }],
          method_missing_reason := st.method_missing_reason }
        st.caches.length (lookup_begin args.recv) = some (0, st.entries.length) := by
      unfold get_inline_cache
      rw [hcache]
      simp only [get_inline_cache.scan, hentry, hrc, if_true]
    refine ⟨hg, ?_⟩
    simp only [check_cache, hg, hentry]

end InlineCache

/-- An instance of `create_spec`: the cache promoted from `sampleMono` with three
slots; a receiver of class 0 hits it. -/
theorem create_spec_witness :
    ((InlineCache.create 3 samplePolicy true sampleVM sampleMono).2.cache 0).cache_
      = [⟨some 0, 0⟩, ⟨none, 0⟩, ⟨none, 0⟩] ∧
    (InlineCache.check_cache sampleLookup
        (InlineCache.create 3 samplePolicy true sampleVM sampleMono).2 0 9
        ⟨Object.fixnum 0, []⟩).1
      = Call.execute 9 (Object.ref 61) (Object.ref 60) ⟨Object.fixnum 0, []⟩ :=
  have h := InlineCache.create_spec 3 samplePolicy true sampleVM sampleMono (by decide)
  ⟨h.2.2.2.2.1, (h.2.2.2.2.2.2.2 sampleLookup 9 ⟨Object.fixnum 0, []⟩ (by decide)).2⟩

namespace CompiledCode

/-! ## `CompiledCode::find_specialized` -/

theorem find_entry_some (code : CompiledCode) (cls : ClassData) (s : Specialization)
    (h : find_entry code cls = some s) :
    s ∈ code.specializations ∧ s.class_id = cls.class_id ∧ s.serial_id = cls.serial_id := by
  unfold find_entry at h
  have hm := List.mem_of_find?_eq_some h
  have hp := List.find?_some h
  simp only [decide_eq_true_eq] at hp
  exact ⟨hm, hp.1, hp.2⟩

theorem find_entry_none (code : CompiledCode) (cls : ClassData) :
    find_entry code cls = none ↔
      ∀ s ∈ code.specializations,
        ¬ (s.class_id = cls.class_id ∧ s.serial_id = cls.serial_id) := by
  unfold find_entry
  rw [List.find?_eq_none]
  constructor
  · intro h s hs
    simpa using h s hs
  · intro h s hs
    simpa using h s hs

/-- C15: `find_specialized(cls)` returns the default entry point, the one installed
by `set_unspecialized`, when no registered specialization matches the class id and
the current serial of `cls`; otherwise it returns the entry point of the most
recent registration that matches both. A registration under another serial of the
class is never the one selected, and adding one does not change the answer. -/
theorem find_specialized_spec (code : CompiledCode) (cls : ClassData) :
    ((∀ s ∈ code.specializations,
        ¬ (s.class_id = cls.class_id ∧ s.serial_id = cls.serial_id)) →
      find_specialized code cls = code.unspecialized ∧
      ∀ exec rd, find_specialized (set_unspecialized code exec rd) cls = some exec) ∧
    ((∃ s ∈ code.specializations, s.class_id = cls.class_id ∧ s.serial_id = cls.serial_id) →
      ∃ s, find_entry code cls = some s ∧
        s ∈ code.specializations ∧ s.class_id = cls.class_id ∧
        s.serial_id = cls.serial_id ∧
        find_specialized code cls = some s.execute ∧
        ∀ exec rd, find_specialized (set_unspecialized code exec rd) cls = some s.execute) ∧
    (∀ class_id serial_id exec rd,
      find_specialized (add_specialized code class_id serial_id exec rd) cls
        = if class_id = cls.class_id ∧ serial_id = cls.serial_id then some exec
          else find_specialized code cls) ∧
    (∀ class_id serial_id exec rd, serial_id ≠ cls.serial_id →
      find_entry (add_specialized code class_id serial_id exec rd) cls
        = find_entry code cls) := by
  refine ⟨fun h => ?_, fun h => ?_, fun class_id serial_id exec rd => ?_,
    fun class_id serial_id exec rd hne => ?_⟩
  · have hn := (find_entry_none code cls).mpr h
    refine ⟨by simp only [find_specialized, hn], fun exec rd => ?_⟩
    have : find_entry (set_unspecialized code exec rd) cls = none := hn
    simp only [find_specialized, this]
    rfl
  · cases hf : find_entry code cls with
    | none =>
      obtain ⟨s, hs, hm⟩ := h
      exact absurd hm ((find_entry_none code cls).mp hf s hs)
    | some s =>
      obtain ⟨h1, h2, h3⟩ := find_entry_some code cls s hf
      refine ⟨s, rfl, h1, h2, h3, by simp only [find_specialized, hf], fun exec rd => ?_⟩
      have : find_entry (set_unspecialized code exec rd) cls = some s := hf
      simp only [find_specialized, this]
  · by_cases hm : class_id = cls.class_id ∧ serial_id = cls.serial_id
    · rw [if_pos hm]
      simp [find_specialized, find_entry, add_specialized, List.find?_cons, hm]
    · rw [if_neg hm]
      have : find_entry (add_specialized code class_id serial_id exec rd) cls
          = find_entry code cls := by
        simp [find_entry, add_specialized, List.find?_cons, hm]
      simp only [find_specialized, this]
      rfl
  · have hm : ¬ (class_id = cls.class_id ∧ serial_id = cls.serial_id) := fun h => hne h.2
    simp [find_entry, add_specialized, List.find?_cons, hm]

end CompiledCode

/-- An instance of `find_specialized_spec` on `sampleCode`: class 7 at revision 2
gets the entry point registered for that revision, and a class without a matching
registration gets the default. -/
theorem find_specialized_spec_witness :
    CompiledCode.find_specialized sampleCode ⟨7, 3⟩ = sampleCode.unspecialized ∧
    (∃ s, CompiledCode.find_entry sampleCode ⟨7, 2⟩ = some s ∧
      s ∈ sampleCode.specializations ∧ s.class_id = 7 ∧ s.serial_id = 2 ∧
      CompiledCode.find_specialized sampleCode ⟨7, 2⟩ = some s.execute ∧
      ∀ exec rd, CompiledCode.find_specialized
        (CompiledCode.set_unspecialized sampleCode exec rd) ⟨7, 2⟩ = some s.execute) ∧
    CompiledCode.find_entry (CompiledCode.add_specialized sampleCode 7 1 300 0) ⟨7, 2⟩
      = CompiledCode.find_entry sampleCode ⟨7, 2⟩ :=
  ⟨((CompiledCode.find_specialized_spec sampleCode ⟨7, 3⟩).1 (by decide)).1,
    (CompiledCode.find_specialized_spec sampleCode ⟨7, 2⟩).2.1
      ⟨⟨7, 2, 202, 0⟩, by decide, by decide⟩,
    (CompiledCode.find_specialized_spec sampleCode ⟨7, 2⟩).2.2.2 7 1 300 0 (by decide)⟩

/-! ## `Tuple::reverse` applied twice -/

theorem State.setFields_setFields (st : State) (self : Nat) (g h : List Object) :
    (st.setFields self g).setFields self h = st.setFields self h := by
  by_cases hv : self < st.heap.length
  · simp [State.setFields, State.tuple, List.getD_eq_getElem?_getD, hv]
  · have hle : st.heap.length ≤ self := by omega
    simp [State.setFields, List.set_eq_of_length_le hle]

namespace Tuple

theorem reverse.swap_loop_twice (pos1 pos2 : Int) (f : List Object) (h0 : 0 ≤ pos1)
    (h1 : pos2 < f.length) :
    reverse.swap_loop pos1 pos2 (reverse.swap_loop pos1 pos2 f) = f := by
  have sp := reverse.swap_loop_spec pos1 pos2 f h0 h1
  have sp2 := reverse.swap_loop_spec pos1 pos2 (reverse.swap_loop pos1 pos2 f) h0
    (by rw [sp.1]; exact h1)
  apply fields_ext _ _ (sp2.1.trans sp.1)
  intro x _ _
  rw [sp2.2 x]
  by_cases hx : pos1 ≤ x ∧ x ≤ pos2
  · rw [if_pos hx, sp.2, if_pos (by omega)]
    congr 1; omega
  · rw [if_neg hx, sp.2, if_neg hx]

theorem reverse_of_active (st : State) (self : Nat) (start total : Int)
    (hc : ¬ (total ≤ 0 ∨ start < 0 ∨ start ≥ num_fields st self)) :
    reverse st self start total
      = ⟨Except.ok self, st.setFields self
          (reverse.swap_loop start (min (start + total - 1) (num_fields st self - 1))
            (st.fields self))⟩ := by
  have he : (if start + total - 1 ≥ num_fields st self then num_fields st self - 1
      else start + total - 1) = min (start + total - 1) (num_fields st self - 1) := by
    split_ifs <;> omega
  simp only [reverse, if_neg hc, he]

/-- C21: `reverse` is an involution. For every tuple and every `(start, total)`,
`reverse(start, total)` followed by `reverse(start, total)` on the state the first
call leaves returns the receiver both times and ends in exactly the state before
the first call, so every slot of the array holds its original value. -/
theorem reverse_involution (st : State) (self : Nat) (start total : Int) :
    (reverse st self start total).value = Except.ok self ∧
    (reverse (reverse st self start total).state self start total).value = Except.ok self ∧
    (reverse (reverse st self start total).state self start total).state = st ∧
    (reverse (reverse st self start total).state self start total).state.fields self
      = st.fields self := by
  have hn : num_fields st self = ((st.fields self).length : Int) := rfl
  by_cases hc : total ≤ 0 ∨ start < 0 ∨ start ≥ num_fields st self
  · have hcf : reverse st self start total = ⟨Except.ok self, st⟩ := by
      simp only [reverse, if_pos hc]
    have hcf2 : reverse (reverse st self start total).state self start total
        = ⟨Except.ok self, st⟩ := by
      rw [hcf]; exact hcf
    rw [hcf2, hcf]
    exact ⟨rfl, rfl, rfl, rfl⟩
  · have hcf := reverse_of_active st self start total hc
    have hlen := reverse.length_swap_loop start
      (min (start + total - 1) (num_fields st self - 1)) (st.fields self)
    have hf1 := State.fields_setFields_same_length st self _ hlen
    have hn1 : num_fields (reverse st self start total).state self = num_fields st self := by
      rw [hcf]
      show (((State.fields (st.setFields self _) self).length : Nat) : Int) = _
      rw [hf1, hlen, hn]
    have hc1 : ¬ (total ≤ 0 ∨ start < 0 ∨
        start ≥ num_fields (reverse st self start total).state self) := by
      rw [hn1]; exact hc
    have hcf2 : reverse (reverse st self start total).state self start total
        = ⟨Except.ok self, st⟩ := by
      rw [reverse_of_active _ self start total hc1, hn1]
      rw [hcf]
      show Result.mk (Except.ok self) (State.setFields (st.setFields self _) self
        (reverse.swap_loop start _ (State.fields (st.setFields self _) self))) = _
      rw [hf1, reverse.swap_loop_twice start _ (st.fields self) (by omega) (by omega),
        State.setFields_setFields, State.setFields_fields_self]
    rw [hcf2]
    exact ⟨by rw [hcf], rfl, rfl, rfl⟩

end Tuple

/-- An instance of `reverse_involution`: reversing the last four slots of `[1,2,3,4,5]`
twice gives back the starting state. -/
theorem reverse_involution_witness :
    (Tuple.reverse (Tuple.reverse sampleState 0 1 10).state 0 1 10).state = sampleState :=
  (Tuple.reverse_involution sampleState 0 1 10).2.2.1

end Rubinius
